import Mathlib

/-!
Verification of the plasma storage-engine core (Bw-tree-style delta-chain pages,
LSS blocks, MVCC snapshot machinery) against its natural-language specification.

The Go source is shallowly embedded: byte buffers are `List Nat` (each entry one
byte), `uint16`/`uint32`/`uint64` casts are explicit `% 2 ^ w` reductions, the
delta chain is an inductive type mirroring the `pageDelta` variants, and
functions that can panic in Go return `Except String`.
-/

namespace Nitro

/-! ## Byte-encoding helpers (Go `encoding/binary`, big-endian) -/

/-- Big-endian encoding of `v` into `w` bytes (`binary.BigEndian.PutUintN`).
Values that do not fit are truncated modulo `2 ^ (8 * w)`, as the Go casts do. -/
def putBE : Nat → Nat → List Nat
  | 0, _ => []
  | w + 1, v => putBE w (v / 256) ++ [v % 256]

/-- Big-endian decoding of a byte list (`binary.BigEndian.UintN`). -/
def readBE (bs : List Nat) : Nat :=
  bs.foldl (fun acc b => acc * 256 + b) 0

/-! ## LSS block helpers (source: `lss` block constants and writers) -/

def lssBlockTypeSize : Nat := 2

def lssPageData : Nat := 1
def lssPageReloc : Nat := 2
def lssPageUpdate : Nat := 3
def lssPageRemove : Nat := 4
def lssRecoveryPoints : Nat := 5
def lssMaxSn : Nat := 6
def lssDiscard : Nat := 7

/-- `writeLSSBlock`: the payload sits after the 2-byte tag and the big-endian
type tag occupies the first two bytes of the reserved buffer. -/
def writeLSSBlock (typ : Nat) (bs : List Nat) : List Nat :=
  putBE 2 typ ++ bs

/-- `discardLSSBlock`: overwrite the first two bytes of an already written
block with the `lssDiscard` tag, leaving the payload in place. -/
def discardLSSBlock (wbuf : List Nat) : List Nat :=
  putBE 2 lssDiscard ++ wbuf.drop 2

/-- `getLSSBlockType`: read the big-endian type tag. -/
def getLSSBlockType (bs : List Nat) : Nat :=
  readBE (bs.take 2)

/-- `decodeMaxSn`: an `lssMaxSn` payload is one big-endian `uint64`. -/
def decodeMaxSn (data : List Nat) : Nat :=
  readBE (data.take 8)

/-! ## MVCC filters (source: `mvcc.go`, `snFilter` / `rollbackFilter`)

The filters look only at an item's sequence number and insert/delete flag, so a
processed item is embedded as that pair. -/

structure VItem where
  sn : Nat
  isIns : Bool
deriving DecidableEq, Repr

/-- `rollbackFilter.Process`: `true` means the item is dropped (the Go code
returns `nilPageItemsList`). An empty filter list passes everything through. -/
def rollbackDrop (filters : List (Nat × Nat)) (sn : Nat) : Bool :=
  filters.any (fun f => decide (f.1 ≤ sn) && decide (sn ≤ f.2))

structure SnFilter where
  sn : Nat
  skip : Bool
  filters : List (Nat × Nat)
deriving DecidableEq, Repr

/-- `snFilter.Process`: returns the updated filter state and whether the item
is kept (the Go code returns `o` to keep, `nilPageItemsList` to drop). -/
def snFilterProcess (f : SnFilter) (o : VItem) : SnFilter × Bool :=
  if rollbackDrop f.filters o.sn then (f, false)
  else if f.skip || decide (o.sn > f.sn) then ({ f with skip := false }, false)
  else if !o.isIns then ({ f with skip := true }, false)
  else (f, true)

/-- Feeding a sequence of items through `snFilter.Process`, collecting the
items it keeps. -/
def snFilterRun (f : SnFilter) : List VItem → List VItem
  | [] => []
  | o :: rest =>
    let r := snFilterProcess f o
    if r.2 then o :: snFilterRun r.1 rest else snFilterRun r.1 rest

/-! ## Snapshots (source: `mvcc.go`, `newSnapshot` / `updateMaxSn`) -/

inductive Snap where
  | nilSnap
  | mk (sn : Nat) (refCount : Int) (count : Int) (child : Snap)
deriving DecidableEq, Repr

def Snap.sn : Snap → Nat
  | .nilSnap => 0
  | .mk sn _ _ _ => sn

def Snap.refCount : Snap → Int
  | .nilSnap => 0
  | .mk _ rc _ _ => rc

def Snap.count : Snap → Int
  | .nilSnap => 0
  | .mk _ _ c _ => c

def Snap.child : Snap → Snap
  | .nilSnap => .nilSnap
  | .mk _ _ _ ch => ch

/-- `s.currSnapshot.child = nextSnap` (mutation of the child pointer). -/
def Snap.setChild : Snap → Snap → Snap
  | .nilSnap, _ => .nilSnap
  | .mk sn rc c _, ch => .mk sn rc c ch

/-- `snap.count = s.itemsCount` (mutation of the count field). -/
def Snap.setCount : Snap → Int → Snap
  | .nilSnap, _ => .nilSnap
  | .mk sn rc _ ch, c => .mk sn rc c ch

/-- The fields of the `Plasma` store that the snapshot control path touches.
`wcounts` holds the per-writer `w.count` counters; `lssLog` is the sequence of
LSS blocks written so far (full block bytes, tag included).  The SMR reclaim
bookkeeping of `newSnapshot` manages raw memory and has no observable effect on
these fields, so it has no counterpart here. -/
structure PlasmaState where
  enableShapshots : Bool
  currSn : Nat
  currSnapshot : Snap
  itemsCount : Int
  wcounts : List Int
  shouldPersist : Bool
  maxSnSyncFrequency : Nat
  numSnCreated : Nat
  lastMaxSn : Nat
  lssLog : List (List Nat)
deriving DecidableEq, Repr

/-- `Plasma.updateMaxSn`.  Go computes `maxSn := sn + uint64(freq+1)` in
`uint64` arithmetic before writing it as one big-endian `lssMaxSn` block. -/
def updateMaxSn (s : PlasmaState) (sn : Nat) (force : Bool) : PlasmaState :=
  if s.shouldPersist then
    let s1 :=
      if s.numSnCreated % s.maxSnSyncFrequency = 0 ∨ force = true then
        let maxSn := (sn + (s.maxSnSyncFrequency + 1)) % 2 ^ 64
        { s with lssLog := s.lssLog ++ [writeLSSBlock lssMaxSn (putBE 8 maxSn)],
                 lastMaxSn := maxSn }
      else s
    { s1 with numSnCreated := s1.numSnCreated + 1 }
  else s

/-- `Plasma.newSnapshot`.  Returns the snapshot handed to the caller together
with the updated store state.  Panics (`snapshots not enabled`) become
`.error`. -/
def newSnapshot (s : PlasmaState) : Except String (Snap × PlasmaState) :=
  if !s.enableShapshots then .error "snapshots not enabled"
  else
    let newSn := (s.currSn + 1) % 2 ^ 64
    let nextSnap : Snap := .mk newSn 2 0 .nilSnap
    let snap := s.currSnapshot.setChild nextSnap
    let s1 := { s with currSn := newSn, currSnapshot := nextSnap }
    let s2 := updateMaxSn s1 newSn false
    let s3 := { s2 with itemsCount := s2.itemsCount + s.wcounts.sum,
                        wcounts := s.wcounts.map (fun _ => 0) }
    .ok (snap.setCount s3.itemsCount, s3)

/-! ## Recovery points (source: `mvcc.go`, `marshalRPs` / `unmarshalRPs`) -/

structure RecoveryPoint where
  sn : Nat
  count : Int
  meta : List Nat
deriving DecidableEq, Repr

/-- Go's `uint64(i)` cast of an `int64` (two's complement). -/
def uint64OfInt (i : Int) : Nat := (i % (2 ^ 64 : Int)).toNat

/-- Go's `int64(n)` cast of a `uint64` (two's complement). -/
def int64OfUint64 (n : Nat) : Int :=
  if n < 2 ^ 63 then (n : Int) else (n : Int) - 2 ^ 64

/-- Go's `uint16(i)` cast of an `int` that may be negative. -/
def uint16OfInt (i : Int) : Nat := (i % (65536 : Int)).toNat

/-- The per-recovery-point record of `marshalRPs`:
`{len: u32, sn: u64, count: u64, meta}`, `len` counting itself. -/
def marshalRP (rp : RecoveryPoint) : List Nat :=
  putBE 4 (4 + 8 + 8 + rp.meta.length) ++ putBE 8 rp.sn ++
    putBE 8 (uint64OfInt rp.count) ++ rp.meta

/-- `marshalRPs`: `[version: u16][n: u16]` followed by the records. -/
def marshalRPs (rps : List RecoveryPoint) (version : Nat) : List Nat :=
  putBE 2 version ++ putBE 2 rps.length ++ (rps.map marshalRP).flatten

/-- The `for i := 0; i < n; i++` decode loop of `unmarshalRPs`; `bs` is the
byte suffix starting at the current record. -/
def unmarshalRPsLoop : Nat → List Nat → List RecoveryPoint
  | 0, _ => []
  | n + 1, bs =>
    let l := readBE (bs.take 4)
    let rp : RecoveryPoint :=
      { sn := readBE ((bs.drop 4).take 8),
        count := int64OfUint64 (readBE ((bs.drop 12).take 8)),
        meta := (bs.take l).drop 20 }
    rp :: unmarshalRPsLoop n (bs.drop l)

/-- `unmarshalRPs`: returns the version and the decoded recovery points. -/
def unmarshalRPs (bs : List Nat) : Nat × List RecoveryPoint :=
  (readBE (bs.take 2), unmarshalRPsLoop (readBE ((bs.drop 2).take 2)) (bs.drop 4))

/-! ## Persist retry loop (source: `Plasma.Persist`)

`Persist` is driven by the outcomes of its `UpdateMapping` compare-and-swap;
those outcomes are the only source of nondeterminism, so the embedding takes
them as an explicit list.  The result pairs the number of `ReadPage` calls with
the final contents of every reserved LSS block (block bytes, finalized flag).
`none` means the supplied outcome list ran out while the loop was still
retrying; Go itself never exits the loop without a successful CAS. -/
def persistGo (needsFlush evict isEvictable : Bool) (typ : Nat) (payload : List Nat) :
    List Bool → Nat → List (List Nat × Bool) → Option (Nat × List (List Nat × Bool))
  | [], _, _ => none
  | ok :: rest, reads, blocks =>
    let r := reads + 1
    if needsFlush then
      let wbuf := writeLSSBlock typ payload
      if ok then some (r, blocks ++ [(wbuf, true)])
      else persistGo needsFlush evict isEvictable typ payload rest r
        (blocks ++ [(discardLSSBlock wbuf, true)])
    else if evict && isEvictable then
      if ok then some (r, blocks)
      else persistGo needsFlush evict isEvictable typ payload rest r blocks
    else some (r, blocks)

/-! ## The page delta chain (source: `page.go` part)

Items are byte strings; the `skiplist.MaxItem` sentinel is a distinguished
value (in Go it is a distinguished pointer, recognised by pointer equality and
treated by the comparator as larger than every key). -/

inductive Itm where
  | maxItem
  | item (bs : List Nat)
deriving DecidableEq, Repr

/-- `pg.itemSize`: the sentinel carries no bytes. -/
def Itm.size : Itm → Nat
  | .maxItem => 0
  | .item bs => bs.length

def Itm.bytes : Itm → List Nat
  | .maxItem => []
  | .item bs => bs

/-- The common `pageDelta` header: `op` is carried by the constructor. -/
structure Hdr where
  chainLen : Nat
  numItems : Nat
  hiItm : Itm
  rightSibling : Nat
deriving DecidableEq, Repr

/-- The `pageDelta` variants.  `nilPd` is the Go nil pointer; `base` is
terminal (the Go `basePage` struct has no `next` field). -/
inductive PD where
  | nilPd
  | record (isIns : Bool) (hdr : Hdr) (itm : Itm) (next : PD)
  | split (hdr : Hdr) (itm : Itm) (next : PD)
  | merge (hdr : Hdr) (itm : Itm) (mergeSibling : PD) (next : PD)
  | flush (hdr : Hdr) (offset : Nat) (next : PD)
  | remove (hdr : Hdr) (next : PD)
  | base (hdr : Hdr) (items : List Itm)
deriving DecidableEq, Repr

/-- Header of a delta node.  Reading a field of the nil pointer is a Go panic;
the nil case below is a placeholder that every theorem guards against. -/
def PD.hdr : PD → Hdr
  | .nilPd => ⟨0, 0, .maxItem, 0⟩
  | .record _ h _ _ => h
  | .split h _ _ => h
  | .merge h _ _ _ => h
  | .flush h _ _ => h
  | .remove h _ => h
  | .base h _ => h

def PD.hiItm (p : PD) : Itm := p.hdr.hiItm

def PD.chainLen (p : PD) : Nat := p.hdr.chainLen

def PD.numItems (p : PD) : Nat := p.hdr.numItems

def PD.rightSibling (p : PD) : Nat := p.hdr.rightSibling

/-- The `next` pointer, where the variant has one. -/
def PD.nextOf : PD → Option PD
  | .nilPd => none
  | .record _ _ _ n => some n
  | .split _ _ n => some n
  | .merge _ _ _ n => some n
  | .flush _ _ n => some n
  | .remove _ n => some n
  | .base _ _ => none

def PD.setHiItm : PD → Itm → PD
  | .nilPd, _ => .nilPd
  | .record b h i n, v => .record b { h with hiItm := v } i n
  | .split h i n, v => .split { h with hiItm := v } i n
  | .merge h i s n, v => .merge { h with hiItm := v } i s n
  | .flush h o n, v => .flush { h with hiItm := v } o n
  | .remove h n, v => .remove { h with hiItm := v } n
  | .base h its, v => .base { h with hiItm := v } its

/-- `page.InRange`: an item is in range unless the page has a head whose
`hiItm` it reaches. -/
def InRange (cmp : Itm → Itm → Int) (head : PD) (itm : Itm) : Bool :=
  !(decide (head ≠ PD.nilPd) && decide (0 ≤ cmp itm head.hiItm))

/-! ### Lookup (source: `page.Lookup`) -/

/-- The loop of Go's `sort.Search`: binary search for the frontier of `f` on
`[i, j)`.  The fuel argument only drives termination; `j - i` halves each
step, so any fuel of at least `j - i` is enough. -/
def goSearch (f : Nat → Bool) : Nat → Nat → Nat → Nat
  | 0, i, _ => i
  | fuel + 1, i, j =>
    if i < j then
      if f ((i + j) / 2) then goSearch f fuel i ((i + j) / 2)
      else goSearch f fuel ((i + j) / 2 + 1) j
    else i

def sortSearch (n : Nat) (f : Nat → Bool) : Nat := goSearch f (n + 1) 0 n

/-- The delta-walking loop of `page.Lookup`.  The `default:` branch of the Go
switch panics (`should not happen`), embedded as `.error`. -/
def lookupLoop (cmp : Itm → Itm → Int) (itm : Itm) : PD → Except String (Option Itm)
  | .nilPd => .ok none
  | .record true _ ri next =>
    if cmp ri itm = 0 then .ok (some ri) else lookupLoop cmp itm next
  | .record false _ ri next =>
    if cmp ri itm = 0 then .ok none else lookupLoop cmp itm next
  | .base _ items =>
    let n := items.length
    let idx := sortSearch n (fun i => decide (0 ≤ cmp (items.getD i .maxItem) itm))
    if idx < n ∧ cmp (items.getD idx .maxItem) itm = 0 then .ok (some (items.getD idx .maxItem))
    else .ok none
  | .split _ _ next => lookupLoop cmp itm next
  | .merge _ mi sib next =>
    if 0 ≤ cmp itm mi then lookupLoop cmp itm sib else lookupLoop cmp itm next
  | .flush _ _ _ => .error "should not happen"
  | .remove _ _ => .error "should not happen"

/-- `page.Lookup`: `getDeltas` resolves a `PageId` to the head of the page it
maps to (the `storeCtx.getDeltas` callback). -/
def Lookup (cmp : Itm → Itm → Int) (getDeltas : Nat → PD) (head : PD) (itm : Itm) :
    Except String (Option Itm) :=
  match head with
  | .nilPd => .ok none
  | pd =>
    if 0 ≤ cmp itm pd.hiItm then lookupLoop cmp itm (getDeltas pd.rightSibling)
    else lookupLoop cmp itm pd

/-! ### Item collection (source: `page.collectPageItems` / `collectItems`)

The chain walk and the in-range filters follow the source.  The accumulated
delta overlay is sorted by `pageItemSorter.Run` (Go `sort.Stable`) and merged
with the base items by `pageItemSorter.Merge`; those two sorter methods are not
under src/, so per the spec they are modelled as a stable sort and a stable
merge in which deltas win on equal keys. -/

structure PgItem where
  isIns : Bool
  itm : Itm
deriving DecidableEq, Repr

/-- Stable insertion used by the modelled stable sort. -/
def insSorted (cmp : Itm → Itm → Int) (x : PgItem) : List PgItem → List PgItem
  | [] => [x]
  | y :: ys => if cmp y.itm x.itm < 0 then y :: insSorted cmp x ys else x :: y :: ys

/-- Modelled from the spec: `pageItemSorter.Run` (`sort.Stable` keyed by
`cmp`) is not under src/; any stable sort realises it. -/
def stableSort (cmp : Itm → Itm → Int) : List PgItem → List PgItem
  | [] => []
  | x :: xs => insSorted cmp x (stableSort cmp xs)

/-- Fuelled merge of two sorted runs; the fuel is the combined length. -/
def mergeListsF (cmp : Itm → Itm → Int) : Nat → List PgItem → List PgItem → List PgItem
  | 0, bs, ds => bs ++ ds
  | _ + 1, [], ds => ds
  | _ + 1, b :: bs, [] => b :: bs
  | fuel + 1, b :: bs, d :: ds =>
    if cmp b.itm d.itm < 0 then b :: mergeListsF cmp fuel bs (d :: ds)
    else d :: mergeListsF cmp fuel (b :: bs) ds

/-- Modelled from the spec: `pageItemSorter.Merge` is not under src/; it is
the stable merge of the base items with the delta overlay in which the overlay
(second argument) wins on equal keys. -/
def mergeLists (cmp : Itm → Itm → Int) (bs ds : List PgItem) : List PgItem :=
  mergeListsF cmp (bs.length + ds.length) bs ds

/-- `page.inRange(lo, hi, itm)`: `cmp(itm, hi) < 0 && cmp(itm, lo) >= 0`. -/
def inRangeLoHi (cmp : Itm → Itm → Int) (lo hi itm : Itm) : Bool :=
  decide (cmp itm hi < 0) && decide (0 ≤ cmp itm lo)

/-- `page.collectPageItems` with the sorter's pending list made explicit:
`acc` is the (chain-ordered) contents of the sorter so far. -/
def collectAux (cmp : Itm → Itm → Int) (lo hi : Itm) : PD → List PgItem → List PgItem
  | .nilPd, acc => stableSort cmp acc
  | .record ins _ ri next, acc =>
    collectAux cmp lo hi next (if inRangeLoHi cmp lo hi ri then acc ++ [⟨ins, ri⟩] else acc)
  | .split _ _ next, acc => collectAux cmp lo hi next acc
  | .merge _ _ sib next, acc => collectAux cmp lo hi next (acc ++ collectAux cmp lo hi sib [])
  | .flush _ _ next, acc => collectAux cmp lo hi next acc
  | .remove _ next, acc => collectAux cmp lo hi next acc
  | .base _ items, acc =>
    mergeLists cmp ((items.filter (fun x => inRangeLoHi cmp lo hi x)).map (fun x => ⟨true, x⟩))
      (stableSort cmp acc)

def collectPageItems (cmp : Itm → Itm → Int) (head : PD) (lo hi : Itm) : List PgItem :=
  collectAux cmp lo hi head []

/-- `page.collectItems`: keep the items whose `PageItem` is an insert. -/
def collectItems (cmp : Itm → Itm → Int) (head : PD) (lo hi : Itm) : List Itm :=
  ((collectPageItems cmp head lo hi).filter (fun x => x.isIns)).map (fun x => x.itm)

/-! ### Split and Merge (source: `page.Split`, `page.Merge`) -/

/-- `page.newBasePage`: a fresh base page carrying the given items.  When the
page has no head, Go leaves `hiItm` as the nil pointer and `rightSibling` as
nil; every caller on that path overwrites both, so placeholders stand in. -/
def newBasePage (head : PD) (itms : List Itm) : PD :=
  .base { chainLen := 0, numItems := itms.length % 65536,
          hiItm := if head = PD.nilPd then .maxItem else head.hiItm,
          rightSibling := if head = PD.nilPd then 0 else head.rightSibling } itms

/-- The `for curr.op != opBasePage` walk at the top of `page.Split`. -/
def findBase : PD → Option (Hdr × List Itm)
  | .nilPd => none
  | .record _ _ _ n => findBase n
  | .split _ _ n => findBase n
  | .merge _ _ _ n => findBase n
  | .flush _ _ n => findBase n
  | .remove _ n => findBase n
  | .base h items => some (h, items)

/-- The `for mid > 0 { if p(mid) { break }; mid-- }` clamp loop of
`page.Split`, with `p m` standing for `cmp(items[m], head.hiItm) < 0`. -/
def clampLoop (p : Nat → Bool) : Nat → Nat
  | 0 => 0
  | m + 1 => if p (m + 1) then m + 1 else clampLoop p m

structure SplitRes where
  newHead : PD
  oldHead : PD
deriving DecidableEq, Repr

/-- `page.Split(pid)`.  `.ok none` is Go's `return nil` (split declined);
`.error` is the nil dereference Go would hit on a chain with no base page. -/
def Split (cmp : Itm → Itm → Int) (head : PD) (pid : Nat) : Except String (Option SplitRes) :=
  match findBase head with
  | none => .error "no basePage in chain"
  | some (_, items) =>
    let mid := clampLoop (fun m => decide (cmp (items.getD m .maxItem) head.hiItm < 0))
      (items.length / 2)
    if 0 < mid then
      let pivot := items.getD mid .maxItem
      let itms := collectItems cmp head pivot head.hiItm
      let oldHead : PD :=
        .split { chainLen := (head.chainLen + 1) % 65536, numItems := mid % 65536,
                 hiItm := pivot, rightSibling := pid } pivot head
      .ok (some { newHead := newBasePage head itms, oldHead := oldHead })
    else .ok none

/-- `page.newMergePageDelta(itm, sibl)`.  Go leaves the new delta's `hiItm`
unset (nil); `page.Merge` then overwrites it, so a placeholder stands in. -/
def newMergePageDelta (head : PD) (itm : Itm) (sibl : PD) : PD :=
  let c0 := if head = PD.nilPd then 0 else head.chainLen
  let n0 := if head = PD.nilPd then 0 else head.numItems
  .merge { chainLen := (c0 + sibl.chainLen + 1) % 65536,
           numItems := (n0 + sibl.numItems) % 65536,
           hiItm := .maxItem,
           rightSibling := sibl.rightSibling } itm sibl head

/-- `page.Merge(sp)`: link `sp.head.next` as the merge sibling and take over
its `hiItm`.  Reading `.next` of a nil head (or of a head with no next field)
is undefined in Go; those cases are `.error` here. -/
def Merge (pHead sHead : PD) : Except String PD :=
  if pHead = PD.nilPd then .error "nil page head"
  else
    match sHead.nextOf with
    | none => .error "sibling head has no next delta"
    | some sibl => .ok ((newMergePageDelta pHead pHead.hiItm sibl).setHiItm sibl.hiItm)

/-! ### Marshal (source: `page.Marshal`) -/

def opBasePage : Nat := 0
def opInsertDelta : Nat := 1
def opDeleteDelta : Nat := 2
def opPageSplitDelta : Nat := 3
def opPageRemoveDelta : Nat := 4
def opPageMergeDelta : Nat := 5
def opFlushPageDelta : Nat := 6

/-- The length-prefixed item encoding of `page.Marshal`: `MaxItem` is encoded
as a zero `u16` length and no bytes. -/
def marshalItm : Itm → List Nat
  | .maxItem => putBE 2 0
  | .item bs => putBE 2 bs.length ++ bs

/-- The delta-emitting loop of `page.Marshal`.  `head` is the page head, fixed
for the whole walk (it is what `pg.InRange` consults); the second argument is
the delta the loop is at.  Variants without a case in the Go switch emit
nothing and fall through to `next`. -/
def marshalLoop (cmp : Itm → Itm → Int) (head : PD) : PD → List Nat
  | .nilPd => []
  | .record ins _ ri next =>
    (if InRange cmp head ri then
      putBE 2 (if ins then opInsertDelta else opDeleteDelta) ++ putBE 2 ri.size ++ ri.bytes
     else []) ++ marshalLoop cmp head next
  | .base _ items =>
    let inr := items.filter (fun x => InRange cmp head x)
    putBE 2 opBasePage ++ putBE 2 inr.length ++
      (inr.map (fun x => putBE 2 x.size ++ x.bytes)).flatten
  | .flush _ off _ => putBE 2 opFlushPageDelta ++ putBE 8 off
  | .split _ _ next => marshalLoop cmp head next
  | .merge _ _ _ next => marshalLoop cmp head next
  | .remove _ next => marshalLoop cmp head next

/-- `page.Marshal`: header (`chainLen`, `numItems`, `hiItm`, low key of
`rightSibling`) followed by the emitted deltas.  `getItem` is the
`storeCtx.getItem` callback resolving a `PageId` to its low key. -/
def Marshal (cmp : Itm → Itm → Int) (getItem : Nat → Itm) (head : PD) : List Nat :=
  match head with
  | .nilPd => []
  | pd =>
    putBE 2 pd.chainLen ++ putBE 2 pd.numItems ++ marshalItm pd.hiItm ++
      marshalItm (getItem pd.rightSibling) ++ marshalLoop cmp pd pd

/-! ### Unmarshal (source: `page.Unmarshal`) -/

/-- One decoded delta before the chain is linked up. -/
inductive PNode where
  | record (isIns : Bool) (chainLen : Nat) (itm : Itm)
  | base (items : List Itm)
deriving DecidableEq, Repr

/-- The `for i := 0; i < nItms; i++` base-item decode loop; returns the items
and the remaining bytes. -/
def parseBaseItems : Nat → List Nat → List Itm × List Nat
  | 0, data => ([], data)
  | n + 1, data =>
    let l := readBE (data.take 2)
    let itm := (data.drop 2).take l
    let r := parseBaseItems n ((data.drop 2).drop l)
    (Itm.item itm :: r.1, r.2)

/-- The delta-decode loop of `page.Unmarshal`.  `chainLen` counts down as Go's
`chainLen--` does (it is an `int` there, so it may pass zero).  The fuel is
driven by the remaining byte count; an op outside the switch leaves Go's loop
state bogus (the spec calls a malformed op fatal), embedded as `.error`. -/
def parseDeltasLoop (chainLen : Int) : Nat → List Nat → Except String (List PNode)
  | _, [] => .ok []
  | 0, _ => .error "out of fuel"
  | fuel + 1, data =>
    let op := readBE (data.take 2)
    let rest := data.drop 2
    if op = opInsertDelta ∨ op = opDeleteDelta then
      let l := readBE (rest.take 2)
      let itm := (rest.drop 2).take l
      (parseDeltasLoop (chainLen - 1) fuel ((rest.drop 2).drop l)).map
        (fun ns => .record (op = opInsertDelta) (uint16OfInt chainLen) (.item itm) :: ns)
    else if op = opBasePage then
      let n := readBE (rest.take 2)
      let r := parseBaseItems n (rest.drop 2)
      (parseDeltasLoop chainLen fuel r.2).map (fun ns => .base r.1 :: ns)
    else .error "malformed delta op"

/-- Linking the decoded deltas head-to-tail as `lastPd.next = pd` does.  A
base page is terminal (in Go nothing valid can follow it: the `basePage`
struct has no `next` field). -/
def chainOf (numItems : Nat) (hiItm : Itm) (rs : Nat) : List PNode → PD
  | [] => .nilPd
  | .record ins cl itm :: rest =>
    .record ins { chainLen := cl, numItems := numItems, hiItm := hiItm, rightSibling := rs }
      itm (chainOf numItems hiItm rs rest)
  | .base items :: _ =>
    .base { chainLen := 0, numItems := items.length % 65536, hiItm := hiItm,
            rightSibling := rs } items

structure UnmarshalRes where
  chainLen : Nat
  numItems : Nat
  hiItm : Itm
  rightSibling : Nat
  head : PD
deriving DecidableEq, Repr

/-- The decoded fixed header of `page.Unmarshal`: `chainLen`, `numItems`, the
`hiItm` bound (`MaxItem` when its length field is 0), the `rightSibling`
`PageId`, and the remaining bytes at which the delta loop starts. -/
structure PgHeader where
  chainLen : Nat
  numItems : Nat
  hiItm : Itm
  rightSibling : Nat
  rest : List Nat
deriving DecidableEq, Repr

/-- The header-decoding prefix of `page.Unmarshal`. -/
def parseHeader (getPageId : Itm → Nat) (data : List Nat) : PgHeader :=
  let chainLen := readBE (data.take 2)
  let numItems := readBE ((data.drop 2).take 2)
  let l := readBE ((data.drop 4).take 2)
  let hiItm : Itm := if l = 0 then .maxItem else .item ((data.drop 6).take l)
  let rest1 := if l = 0 then data.drop 6 else (data.drop 6).drop l
  let l2 := readBE (rest1.take 2)
  let rs : Nat := if l2 = 0 then getPageId .maxItem else getPageId (.item ((rest1.drop 2).take l2))
  let rest2 := if l2 = 0 then rest1.drop 2 else (rest1.drop 2).drop l2
  ⟨chainLen, numItems, hiItm, rs, rest2⟩

/-- `page.Unmarshal` on a fresh page.  `getPageId` is the `storeCtx.getPageId`
callback mapping a low key to a `PageId`. -/
def Unmarshal (getPageId : Itm → Nat) (data : List Nat) : Except String UnmarshalRes :=
  (parseDeltasLoop ((parseHeader getPageId data).chainLen : Int)
      (parseHeader getPageId data).rest.length (parseHeader getPageId data).rest).map
    (fun ns =>
      { chainLen := (parseHeader getPageId data).chainLen,
        numItems := (parseHeader getPageId data).numItems,
        hiItm := (parseHeader getPageId data).hiItm,
        rightSibling := (parseHeader getPageId data).rightSibling,
        head := chainOf (parseHeader getPageId data).numItems
          (parseHeader getPageId data).hiItm (parseHeader getPageId data).rightSibling ns })

/-- Every node of a chain (merge siblings included) carries `v` as its
`hiItm`. -/
def allHiItm : PD → Itm → Prop
  | .nilPd, _ => True
  | .record _ h _ n, v => h.hiItm = v ∧ allHiItm n v
  | .split h _ n, v => h.hiItm = v ∧ allHiItm n v
  | .merge h _ s n, v => h.hiItm = v ∧ allHiItm s v ∧ allHiItm n v
  | .flush h _ n, v => h.hiItm = v ∧ allHiItm n v
  | .remove h n, v => h.hiItm = v ∧ allHiItm n v
  | .base h _, v => h.hiItm = v

/-! ### A concrete comparator for witnesses

The real comparator orders items by byte-lexicographic key; `MaxItem` is above
everything.  Witness pages use it. -/

def listCmp : List Nat → List Nat → Int
  | [], [] => 0
  | [], _ :: _ => -1
  | _ :: _, [] => 1
  | a :: as, b :: bs => if a < b then -1 else if b < a then 1 else listCmp as bs

def cmpB : Itm → Itm → Int
  | .maxItem, .maxItem => 0
  | .maxItem, .item _ => 1
  | .item _, .maxItem => -1
  | .item a, .item b => listCmp a b

/-! ### Concrete stores exercised by witness theorems -/

def c2Store : PlasmaState :=
  { enableShapshots := true, currSn := 5, currSnapshot := .mk 5 1 4 .nilSnap,
    itemsCount := 7, wcounts := [2, 3], shouldPersist := true,
    maxSnSyncFrequency := 3, numSnCreated := 1, lastMaxSn := 0, lssLog := [] }

def c7Store : PlasmaState :=
  { enableShapshots := true, currSn := 5, currSnapshot := .nilSnap,
    itemsCount := 0, wcounts := [], shouldPersist := true,
    maxSnSyncFrequency := 3, numSnCreated := 0, lastMaxSn := 0, lssLog := [] }

/-- A concrete page (one insert delta over a four-item base, bounded by key
`[9]`) exercised by the Split witness. -/
def c4Head : PD :=
  .record true ⟨1, 4, .item [9], 3⟩ (.item [0])
    (.base ⟨0, 4, .item [9], 3⟩ [.item [1], .item [2], .item [5], .item [7]])

/-! # Theorems -/

/-! ## Byte-encoding lemmas -/

theorem putBE_length (w v : Nat) : (putBE w v).length = w := by
  induction w generalizing v with
  | zero => rfl
  | succ w ih => simp [putBE, ih]

theorem readBE_foldl (acc : Nat) (l : List Nat) :
    l.foldl (fun a b => a * 256 + b) acc = acc * 256 ^ l.length + readBE l := by
  induction l generalizing acc with
  | nil => simp [readBE]
  | cons b bs ih =>
    show List.foldl _ (acc * 256 + b) bs = _
    rw [ih (acc * 256 + b)]
    have hb : readBE (b :: bs) = b * 256 ^ bs.length + readBE bs := by
      show List.foldl _ (0 * 256 + b) bs = _
      rw [ih (0 * 256 + b)]
      ring_nf
    rw [hb, List.length_cons]
    ring

theorem readBE_append (l1 l2 : List Nat) :
    readBE (l1 ++ l2) = readBE l1 * 256 ^ l2.length + readBE l2 := by
  show List.foldl _ 0 (l1 ++ l2) = _
  rw [List.foldl_append]
  exact readBE_foldl _ l2

theorem readBE_putBE (w v : Nat) : readBE (putBE w v) = v % 256 ^ w := by
  induction w generalizing v with
  | zero => simp [putBE, readBE, Nat.mod_one]
  | succ w ih =>
    rw [putBE, readBE_append, ih]
    have h1 : readBE [v % 256] = v % 256 := by simp [readBE]
    have h2 : (256 : Nat) ^ (w + 1) = 256 * 256 ^ w := by ring
    rw [h1, h2, Nat.mod_mul]
    simp only [List.length_cons, List.length_nil, pow_one, zero_add]
    ring

theorem readBE_putBE_lt (w v : Nat) (h : v < 256 ^ w) : readBE (putBE w v) = v := by
  rw [readBE_putBE, Nat.mod_eq_of_lt h]

theorem take_putBE_append (w v : Nat) (rest : List Nat) :
    (putBE w v ++ rest).take w = putBE w v := by
  have := List.take_left (putBE w v) rest
  rwa [putBE_length] at this

theorem drop_putBE_append (w v : Nat) (rest : List Nat) :
    (putBE w v ++ rest).drop w = rest := by
  have := List.drop_left (putBE w v) rest
  rwa [putBE_length] at this

theorem getLSSBlockType_writeLSSBlock (typ : Nat) (bs : List Nat) (h : typ < 65536) :
    getLSSBlockType (writeLSSBlock typ bs) = typ := by
  rw [getLSSBlockType, writeLSSBlock, take_putBE_append, readBE_putBE]
  exact Nat.mod_eq_of_lt h

theorem getLSSBlockType_discardLSSBlock (wbuf : List Nat) :
    getLSSBlockType (discardLSSBlock wbuf) = lssDiscard := by
  rw [getLSSBlockType, discardLSSBlock, take_putBE_append, readBE_putBE]
  rfl

/-! ## C1: the snapshot filter -/

/-- C1 (counterexample): take snapshot SN 10 and a single key's version list
presented newest-first as delete@5, insert@4, insert@3 (all SNs ≤ 10, no
rollback filters active).  The newest qualifying version is a delete, so the
claim says the key is suppressed entirely and every item after the delete is
dropped — yet `snFilter.Process` keeps insert@3: the `skip` latch is cleared
after suppressing the single item that follows the delete (the filter never
sees the key, so it cannot hold the latch "until the key changes"). -/
theorem C1_counterexample :
    snFilterRun ⟨10, false, []⟩ [⟨5, false⟩, ⟨4, true⟩, ⟨3, true⟩] = [⟨3, true⟩] ∧
    snFilterRun ⟨10, false, []⟩ [⟨5, false⟩, ⟨4, true⟩, ⟨3, true⟩] ≠ [] := by
  constructor
  · decide
  · decide

/-- C1 (amended): on a newest-first version list all of whose SNs qualify
(`≤ sn`), with the latch clear and no rollback filters: the filter keeps a
leading qualifying insert; a qualifying delete sets the `skip` latch, and the
latch drops exactly the one item that follows it (after which it is clear
again).  Hence a key whose newest qualifying version is a delete is
suppressed entirely exactly when at most one equal-key item follows the
delete. -/
theorem C1_snFilter_amended (fsn : Nat) (d x i : VItem) (l : List VItem)
    (hd : d.isIns = false) (hdsn : d.sn ≤ fsn)
    (hi : i.isIns = true) (hisn : i.sn ≤ fsn) :
    snFilterRun ⟨fsn, false, []⟩ (d :: x :: l) = snFilterRun ⟨fsn, false, []⟩ l ∧
    snFilterRun ⟨fsn, false, []⟩ [d] = [] ∧
    snFilterRun ⟨fsn, false, []⟩ [d, x] = [] ∧
    snFilterRun ⟨fsn, false, []⟩ (i :: l) = i :: snFilterRun ⟨fsn, false, []⟩ l := by
  have hproc_d : snFilterProcess ⟨fsn, false, []⟩ d = (⟨fsn, true, []⟩, false) := by
    simp [snFilterProcess, rollbackDrop, hd, Nat.not_lt.mpr hdsn]
  have hproc_skip : ∀ y : VItem, snFilterProcess ⟨fsn, true, []⟩ y = (⟨fsn, false, []⟩, false) := by
    intro y
    simp [snFilterProcess, rollbackDrop]
  have hproc_i : snFilterProcess ⟨fsn, false, []⟩ i = (⟨fsn, false, []⟩, true) := by
    simp [snFilterProcess, rollbackDrop, hi, Nat.not_lt.mpr hisn]
  refine ⟨?_, ?_, ?_, ?_⟩ <;>
    simp [snFilterRun, hproc_d, hproc_skip, hproc_i]

/-- C1 (witness for the amended theorem at snapshot SN 9 with concrete
versions). -/
theorem C1_snFilter_amended_witness :
    snFilterRun ⟨9, false, []⟩ [⟨7, false⟩, ⟨6, true⟩, ⟨3, true⟩] =
      snFilterRun ⟨9, false, []⟩ [⟨3, true⟩] ∧
    snFilterRun ⟨9, false, []⟩ [⟨7, false⟩] = [] ∧
    snFilterRun ⟨9, false, []⟩ [⟨7, false⟩, ⟨6, true⟩] = [] ∧
    snFilterRun ⟨9, false, []⟩ [⟨5, true⟩, ⟨3, true⟩] =
      ⟨5, true⟩ :: snFilterRun ⟨9, false, []⟩ [⟨3, true⟩] :=
  C1_snFilter_amended 9 ⟨7, false⟩ ⟨6, true⟩ ⟨5, true⟩ [⟨3, true⟩]
    rfl (by decide) rfl (by decide)

/-! ## C2: newSnapshot -/

theorem updateMaxSn_currSn (s : PlasmaState) (sn : Nat) (force : Bool) :
    (updateMaxSn s sn force).currSn = s.currSn := by
  unfold updateMaxSn
  by_cases h : s.shouldPersist <;>
    by_cases h2 : s.numSnCreated % s.maxSnSyncFrequency = 0 ∨ force = true <;>
      simp [h, h2]

theorem updateMaxSn_currSnapshot (s : PlasmaState) (sn : Nat) (force : Bool) :
    (updateMaxSn s sn force).currSnapshot = s.currSnapshot := by
  unfold updateMaxSn
  by_cases h : s.shouldPersist <;>
    by_cases h2 : s.numSnCreated % s.maxSnSyncFrequency = 0 ∨ force = true <;>
      simp [h, h2]

theorem updateMaxSn_itemsCount (s : PlasmaState) (sn : Nat) (force : Bool) :
    (updateMaxSn s sn force).itemsCount = s.itemsCount := by
  unfold updateMaxSn
  by_cases h : s.shouldPersist <;>
    by_cases h2 : s.numSnCreated % s.maxSnSyncFrequency = 0 ∨ force = true <;>
      simp [h, h2]

/-- C2 (counterexample): a store at `currSn = 5` whose current snapshot has
`sn = 5`, `refCount = 1`.  `newSnapshot` increments `currSn` to 6 and
allocates the new snapshot with `sn = 6`, `refCount = 2` — but the snapshot it
returns has `sn = 5` and `refCount = 1`: it returns the PREVIOUS current
snapshot, not the newly allocated one. -/
theorem C2_counterexample :
    (newSnapshot
      { enableShapshots := true, currSn := 5, currSnapshot := .mk 5 1 0 .nilSnap,
        itemsCount := 7, wcounts := [2, 3], shouldPersist := false,
        maxSnSyncFrequency := 10, numSnCreated := 0, lastMaxSn := 0,
        lssLog := [] }).toOption.map
      (fun r => (r.1.sn, r.1.refCount, r.2.currSn)) = some (5, 1, 6) := by
  decide

/-- C2 (amended): `newSnapshot` atomically increments `currSn`, allocates a
Snapshot whose `sn` is the incremented value and whose `refCount` is 2, links
it as the child of the previous current snapshot and installs it as the new
current snapshot — but it returns the PREVIOUS current snapshot (with its
`count` set to the rolled-up `itemsCount`), not the newly allocated one. -/
theorem C2_newSnapshot_amended (s : PlasmaState) (hen : s.enableShapshots = true)
    (hcs : s.currSnapshot ≠ .nilSnap) :
    ∃ ret st', newSnapshot s = .ok (ret, st') ∧
      st'.currSn = (s.currSn + 1) % 2 ^ 64 ∧
      st'.currSnapshot = .mk ((s.currSn + 1) % 2 ^ 64) 2 0 .nilSnap ∧
      ret.sn = s.currSnapshot.sn ∧
      ret.refCount = s.currSnapshot.refCount ∧
      ret.child = st'.currSnapshot ∧
      ret.count = s.itemsCount + s.wcounts.sum ∧
      st'.itemsCount = s.itemsCount + s.wcounts.sum := by
  obtain ⟨en, csn, csnap, ic, wc, sp, fq, nsc, lms, log⟩ := s
  simp only at hen
  subst hen
  cases csnap with
  | nilSnap => exact absurd rfl hcs
  | mk a b c ch =>
    refine ⟨_, _, rfl, ?_, ?_, ?_, ?_, ?_, ?_, ?_⟩ <;>
      simp only [newSnapshot, updateMaxSn_currSn, updateMaxSn_currSnapshot,
        updateMaxSn_itemsCount, Snap.setChild, Snap.setCount, Snap.sn, Snap.refCount,
        Snap.child, Snap.count]

/-- C2 (witness for the amended theorem on a concrete store). -/
theorem C2_newSnapshot_amended_witness :
    ∃ ret st', newSnapshot c2Store = .ok (ret, st') ∧
      st'.currSn = (c2Store.currSn + 1) % 2 ^ 64 ∧
      st'.currSnapshot = .mk ((c2Store.currSn + 1) % 2 ^ 64) 2 0 .nilSnap ∧
      ret.sn = c2Store.currSnapshot.sn ∧
      ret.refCount = c2Store.currSnapshot.refCount ∧
      ret.child = st'.currSnapshot ∧
      ret.count = c2Store.itemsCount + c2Store.wcounts.sum ∧
      st'.itemsCount = c2Store.itemsCount + c2Store.wcounts.sum :=
  C2_newSnapshot_amended c2Store rfl (by decide)

/-! ## C7: updateMaxSn -/

/-- C7: with persistence enabled (and a positive sync frequency, which Go
requires on pain of a division-by-zero panic), `updateMaxSn` appends exactly
one `lssMaxSn` block whose payload decodes to `sn + MaxSnSyncFrequency + 1`
precisely when `numSnCreated` is a multiple of the frequency (including 0) or
`force` is set; otherwise it writes nothing; and it increments `numSnCreated`
afterwards in both cases. -/
theorem C7_updateMaxSn (s : PlasmaState) (sn : Nat) (force : Bool)
    (hp : s.shouldPersist = true) (hf : 0 < s.maxSnSyncFrequency)
    (hb : sn + s.maxSnSyncFrequency + 1 < 2 ^ 64) :
    ((s.numSnCreated % s.maxSnSyncFrequency = 0 ∨ force = true) →
      (updateMaxSn s sn force).lssLog = s.lssLog ++
        [writeLSSBlock lssMaxSn (putBE 8 (sn + s.maxSnSyncFrequency + 1))] ∧
      getLSSBlockType (writeLSSBlock lssMaxSn
        (putBE 8 (sn + s.maxSnSyncFrequency + 1))) = lssMaxSn ∧
      decodeMaxSn (putBE 8 (sn + s.maxSnSyncFrequency + 1)) =
        sn + s.maxSnSyncFrequency + 1 ∧
      (updateMaxSn s sn force).lastMaxSn = sn + s.maxSnSyncFrequency + 1) ∧
    (¬ (s.numSnCreated % s.maxSnSyncFrequency = 0 ∨ force = true) →
      (updateMaxSn s sn force).lssLog = s.lssLog ∧
      (updateMaxSn s sn force).lastMaxSn = s.lastMaxSn) ∧
    (updateMaxSn s sn force).numSnCreated = s.numSnCreated + 1 := by
  have hmod : (sn + (s.maxSnSyncFrequency + 1)) % 2 ^ 64 =
      sn + s.maxSnSyncFrequency + 1 := by
    rw [Nat.mod_eq_of_lt (by omega)]
    omega
  have hdec : decodeMaxSn (putBE 8 (sn + s.maxSnSyncFrequency + 1)) =
      sn + s.maxSnSyncFrequency + 1 := by
    rw [decodeMaxSn]
    have : (putBE 8 (sn + s.maxSnSyncFrequency + 1)).take 8 =
        putBE 8 (sn + s.maxSnSyncFrequency + 1) := by
      apply List.take_of_length_le
      rw [putBE_length]
    rw [this]
    exact readBE_putBE_lt 8 _ (by norm_num at hb ⊢; omega)
  constructor
  · intro hcond
    have harith : (sn + (s.maxSnSyncFrequency + 1)) % 18446744073709551616 =
        sn + s.maxSnSyncFrequency + 1 := by omega
    refine ⟨?_, getLSSBlockType_writeLSSBlock lssMaxSn _ (by decide), hdec, ?_⟩ <;>
      · unfold updateMaxSn
        simp [hp, hcond, harith]
  · constructor
    · intro hcond
      unfold updateMaxSn
      simp [hp, hcond]
    · unfold updateMaxSn
      by_cases hcond : s.numSnCreated % s.maxSnSyncFrequency = 0 ∨ force = true <;>
        simp [hp, hcond]

/-- C7 (witness): a concrete store at `numSnCreated = 0` (the boundary the
spec calls out) with frequency 3 and `sn = 5`. -/
theorem C7_updateMaxSn_witness :
    ((c7Store.numSnCreated % c7Store.maxSnSyncFrequency = 0 ∨ false = true) →
      (updateMaxSn c7Store 5 false).lssLog = c7Store.lssLog ++
        [writeLSSBlock lssMaxSn (putBE 8 (5 + c7Store.maxSnSyncFrequency + 1))] ∧
      getLSSBlockType (writeLSSBlock lssMaxSn
        (putBE 8 (5 + c7Store.maxSnSyncFrequency + 1))) = lssMaxSn ∧
      decodeMaxSn (putBE 8 (5 + c7Store.maxSnSyncFrequency + 1)) =
        5 + c7Store.maxSnSyncFrequency + 1 ∧
      (updateMaxSn c7Store 5 false).lastMaxSn = 5 + c7Store.maxSnSyncFrequency + 1) ∧
    (¬ (c7Store.numSnCreated % c7Store.maxSnSyncFrequency = 0 ∨ false = true) →
      (updateMaxSn c7Store 5 false).lssLog = c7Store.lssLog ∧
      (updateMaxSn c7Store 5 false).lastMaxSn = c7Store.lastMaxSn) ∧
    (updateMaxSn c7Store 5 false).numSnCreated = c7Store.numSnCreated + 1 :=
  C7_updateMaxSn c7Store 5 false rfl (by decide) (by decide)

/-! ## C8: recovery-point marshalling round-trip -/

theorem marshalRP_length (rp : RecoveryPoint) :
    (marshalRP rp).length = 20 + rp.meta.length := by
  simp [marshalRP, putBE_length]
  omega

theorem uint64OfInt_lt (c : Int) : uint64OfInt c < 2 ^ 64 := by
  unfold uint64OfInt
  omega

theorem int64OfUint64_uint64OfInt (c : Int) (h1 : -(2 ^ 63) ≤ c) (h2 : c < 2 ^ 63) :
    int64OfUint64 (uint64OfInt c) = c := by
  unfold int64OfUint64 uint64OfInt
  split <;> omega

theorem marshalRP_decomp (rp : RecoveryPoint) (restBytes : List Nat) :
    marshalRP rp ++ restBytes =
      putBE 4 (20 + rp.meta.length) ++ (putBE 8 rp.sn ++ (putBE 8 (uint64OfInt rp.count) ++
        (rp.meta ++ restBytes))) := by
  simp [marshalRP, List.append_assoc]

theorem unmarshalRPsLoop_cons (rp : RecoveryPoint) (n : Nat) (restBytes : List Nat)
    (hsn : rp.sn < 2 ^ 64) (hc1 : -(2 ^ 63) ≤ rp.count) (hc2 : rp.count < 2 ^ 63)
    (hm : 20 + rp.meta.length < 2 ^ 32) :
    unmarshalRPsLoop (n + 1) (marshalRP rp ++ restBytes) =
      rp :: unmarshalRPsLoop n restBytes := by
  have hL : 20 + rp.meta.length < 256 ^ 4 := by norm_num at hm ⊢; omega
  have hsn' : rp.sn < 256 ^ 8 := by norm_num at hsn ⊢; omega
  have hc' : uint64OfInt rp.count < 256 ^ 8 := by
    have := uint64OfInt_lt rp.count
    norm_num at this ⊢
    omega
  have e0 := marshalRP_decomp rp restBytes
  have etake4 : readBE ((marshalRP rp ++ restBytes).take 4) = 20 + rp.meta.length := by
    rw [e0, take_putBE_append, readBE_putBE_lt _ _ hL]
  have edrop4 : (marshalRP rp ++ restBytes).drop 4 =
      putBE 8 rp.sn ++ (putBE 8 (uint64OfInt rp.count) ++ (rp.meta ++ restBytes)) := by
    rw [e0, drop_putBE_append]
  have esn : readBE (((marshalRP rp ++ restBytes).drop 4).take 8) = rp.sn := by
    rw [edrop4, take_putBE_append, readBE_putBE_lt _ _ hsn']
  have edrop12 : (marshalRP rp ++ restBytes).drop 12 =
      putBE 8 (uint64OfInt rp.count) ++ (rp.meta ++ restBytes) := by
    have : (12 : Nat) = 4 + 8 := rfl
    rw [this, ← List.drop_drop, edrop4, drop_putBE_append]
  have ecount : readBE (((marshalRP rp ++ restBytes).drop 12).take 8) =
      uint64OfInt rp.count := by
    rw [edrop12, take_putBE_append, readBE_putBE_lt _ _ hc']
  have etakeL : (marshalRP rp ++ restBytes).take (20 + rp.meta.length) = marshalRP rp := by
    have := List.take_left (marshalRP rp) restBytes
    rwa [marshalRP_length] at this
  have e0' : marshalRP rp =
      putBE 4 (20 + rp.meta.length) ++ (putBE 8 rp.sn ++ (putBE 8 (uint64OfInt rp.count) ++
        rp.meta)) := by
    simp [marshalRP, List.append_assoc]
  have emeta : ((marshalRP rp ++ restBytes).take (20 + rp.meta.length)).drop 20 = rp.meta := by
    rw [etakeL, e0', show (20 : Nat) = 12 + 8 from rfl, ← List.drop_drop,
      show (12 : Nat) = 4 + 8 from rfl, ← List.drop_drop,
      drop_putBE_append, drop_putBE_append, drop_putBE_append]
  have edropL : (marshalRP rp ++ restBytes).drop (20 + rp.meta.length) = restBytes := by
    have := List.drop_left (marshalRP rp) restBytes
    rwa [marshalRP_length] at this
  simp only [unmarshalRPsLoop, etake4, esn, ecount, emeta, edropL,
    int64OfUint64_uint64OfInt rp.count hc1 hc2]

theorem unmarshalRPsLoop_flatten (rps : List RecoveryPoint)
    (hrp : ∀ rp ∈ rps, rp.sn < 2 ^ 64 ∧ -(2 ^ 63) ≤ rp.count ∧ rp.count < 2 ^ 63 ∧
      20 + rp.meta.length < 2 ^ 32) :
    unmarshalRPsLoop rps.length (rps.map marshalRP).flatten = rps := by
  induction rps with
  | nil => rfl
  | cons rp rest ih =>
    obtain ⟨hsn, hc1, hc2, hm⟩ := hrp rp (List.mem_cons_self _ _)
    rw [List.map_cons, List.flatten_cons, List.length_cons,
      unmarshalRPsLoop_cons rp rest.length _ hsn hc1 hc2 hm,
      ih (fun r hr => hrp r (List.mem_cons_of_mem _ hr))]

/-- C8: for every list of recovery points whose fields fit the wire format
(`≤ 65535` points, `uint64` SNs, `int64` counts, record length below `2^32`)
and every `uint16` version, `unmarshalRPs` inverts `marshalRPs`: the version
and every recovery point's `sn`, `count` and `meta` are recovered exactly. -/
theorem C8_marshalRPs_roundtrip (rps : List RecoveryPoint) (version : Nat)
    (hv : version < 65536) (hn : rps.length < 65536)
    (hrp : ∀ rp ∈ rps, rp.sn < 2 ^ 64 ∧ -(2 ^ 63) ≤ rp.count ∧ rp.count < 2 ^ 63 ∧
      20 + rp.meta.length < 2 ^ 32) :
    unmarshalRPs (marshalRPs rps version) = (version, rps) := by
  have hv' : version < 256 ^ 2 := by norm_num at hv ⊢; omega
  have hn' : rps.length < 256 ^ 2 := by norm_num at hn ⊢; omega
  unfold unmarshalRPs marshalRPs
  have h1 : (putBE 2 version ++ (putBE 2 rps.length ++ (rps.map marshalRP).flatten)).take 2 =
      putBE 2 version := take_putBE_append _ _ _
  have h2 : (putBE 2 version ++ (putBE 2 rps.length ++ (rps.map marshalRP).flatten)).drop 2 =
      putBE 2 rps.length ++ (rps.map marshalRP).flatten := drop_putBE_append _ _ _
  rw [List.append_assoc, h1, h2, take_putBE_append, readBE_putBE_lt _ _ hv',
    readBE_putBE_lt _ _ hn', show (4 : Nat) = 2 + 2 from rfl, ← List.drop_drop, h2,
    drop_putBE_append, unmarshalRPsLoop_flatten rps hrp]

/-- C8 (witness): a concrete two-point list round-trips, one point carrying a
negative count and metadata bytes. -/
theorem C8_marshalRPs_roundtrip_witness :
    unmarshalRPs (marshalRPs [⟨3, 100, [7, 8]⟩, ⟨9, -2, []⟩] 1) =
      (1, [⟨3, 100, [7, 8]⟩, ⟨9, -2, []⟩]) :=
  C8_marshalRPs_roundtrip [⟨3, 100, [7, 8]⟩, ⟨9, -2, []⟩] 1 (by decide) (by decide)
    (by intro rp hr; fin_cases hr <;> refine ⟨by decide, by decide, by decide, by decide⟩)

/-! ## C6: the Persist CAS retry loop -/

theorem persistGo_flush_run (evict isEvictable : Bool) (typ : Nat) (payload : List Nat) :
    ∀ (n reads : Nat) (blocks : List (List Nat × Bool)),
      persistGo true evict isEvictable typ payload (List.replicate n false ++ [true])
          reads blocks =
        some (reads + n + 1,
          blocks ++ List.replicate n (discardLSSBlock (writeLSSBlock typ payload), true) ++
            [(writeLSSBlock typ payload, true)]) := by
  intro n
  induction n with
  | zero => intro reads blocks; simp [persistGo]
  | succ n ih =>
    intro reads blocks
    rw [List.replicate_succ, List.cons_append]
    rw [show persistGo true evict isEvictable typ payload
          (false :: (List.replicate n false ++ [true])) reads blocks =
        persistGo true evict isEvictable typ payload (List.replicate n false ++ [true])
          (reads + 1)
          (blocks ++ [(discardLSSBlock (writeLSSBlock typ payload), true)]) from by
      simp [persistGo]]
    rw [ih]
    simp only [Option.some.injEq, Prod.mk.injEq, List.append_assoc, List.replicate_succ,
      List.cons_append, List.singleton_append]
    exact ⟨by omega, rfl⟩

/-- C6: with a flush pending, `Persist` driven by `n` failing `UpdateMapping`
CAS attempts followed by one success terminates normally (never an error): it
re-reads the page on every attempt (`n + 1` reads), each failed attempt leaves
behind a finalized LSS block whose type tag has been overwritten to
`lssDiscard`, and the successful attempt leaves the finalized block with the
intended type tag and payload intact. -/
theorem C6_persist_retry (n : Nat) (typ : Nat) (payload : List Nat)
    (evict isEvictable : Bool) (htyp : typ < 65536) :
    persistGo true evict isEvictable typ payload (List.replicate n false ++ [true]) 0 [] =
      some (n + 1,
        List.replicate n (discardLSSBlock (writeLSSBlock typ payload), true) ++
          [(writeLSSBlock typ payload, true)]) ∧
    getLSSBlockType (discardLSSBlock (writeLSSBlock typ payload)) = lssDiscard ∧
    getLSSBlockType (writeLSSBlock typ payload) = typ ∧
    (discardLSSBlock (writeLSSBlock typ payload)).drop 2 = payload := by
  refine ⟨?_, getLSSBlockType_discardLSSBlock _, getLSSBlockType_writeLSSBlock _ _ htyp, ?_⟩
  · have := persistGo_flush_run evict isEvictable typ payload n 0 []
    simpa using this
  · rw [discardLSSBlock, writeLSSBlock, drop_putBE_append, drop_putBE_append]

/-- C6 (witness): two CAS failures then success, flushing an `lssPageData`
block with a one-byte payload. -/
theorem C6_persist_retry_witness :
    persistGo true false false lssPageData [5] (List.replicate 2 false ++ [true]) 0 [] =
      some (2 + 1,
        List.replicate 2 (discardLSSBlock (writeLSSBlock lssPageData [5]), true) ++
          [(writeLSSBlock lssPageData [5], true)]) ∧
    getLSSBlockType (discardLSSBlock (writeLSSBlock lssPageData [5])) = lssDiscard ∧
    getLSSBlockType (writeLSSBlock lssPageData [5]) = lssPageData ∧
    (discardLSSBlock (writeLSSBlock lssPageData [5])).drop 2 = [5] :=
  C6_persist_retry 2 lssPageData [5] false false (by decide)

/-! ## C5: page Merge -/

/-- C5: merging a sibling page whose head is a removePageDelta (as `Close`
produces before a merge: the remove delta's header mirrors the chain below
it) prepends a mergePageDelta to `p`'s chain that links the sibling's chain,
whose `hiItm` and `rightSibling` are the sibling's, whose `chainLen` is `p`'s
previous `chainLen` plus the sibling's `chainLen` plus one, and whose
`numItems` is `p`'s previous `numItems` plus the sibling's `numItems`
(`uint16` arithmetic; exact under the stated no-overflow bounds). -/
theorem C5_merge (pHead : PD) (tail : PD)
    (hp : pHead ≠ PD.nilPd)
    (hov1 : pHead.chainLen + tail.chainLen + 1 < 65536)
    (hov2 : pHead.numItems + tail.numItems < 65536) :
    Merge pHead (PD.remove ⟨tail.chainLen, tail.numItems, tail.hiItm, tail.rightSibling⟩ tail) =
      .ok (PD.merge ⟨pHead.chainLen + tail.chainLen + 1, pHead.numItems + tail.numItems,
        tail.hiItm, tail.rightSibling⟩ pHead.hiItm tail pHead) := by
  simp [Merge, newMergePageDelta, PD.setHiItm, PD.nextOf, hp,
    Nat.mod_eq_of_lt hov1, Nat.mod_eq_of_lt hov2]

/-- C5 (witness): a one-delta page absorbing a one-delta closed sibling. -/
theorem C5_merge_witness :
    Merge (PD.record true ⟨2, 3, .item [8], 1⟩ (.item [1]) .nilPd)
        (PD.remove ⟨(PD.record true ⟨1, 2, .item [6], 7⟩ (.item [2]) .nilPd).chainLen,
          (PD.record true ⟨1, 2, .item [6], 7⟩ (.item [2]) .nilPd).numItems,
          (PD.record true ⟨1, 2, .item [6], 7⟩ (.item [2]) .nilPd).hiItm,
          (PD.record true ⟨1, 2, .item [6], 7⟩ (.item [2]) .nilPd).rightSibling⟩
          (PD.record true ⟨1, 2, .item [6], 7⟩ (.item [2]) .nilPd)) =
      .ok (PD.merge ⟨(PD.record true ⟨2, 3, .item [8], 1⟩ (.item [1]) .nilPd).chainLen +
          (PD.record true ⟨1, 2, .item [6], 7⟩ (.item [2]) .nilPd).chainLen + 1,
          (PD.record true ⟨2, 3, .item [8], 1⟩ (.item [1]) .nilPd).numItems +
            (PD.record true ⟨1, 2, .item [6], 7⟩ (.item [2]) .nilPd).numItems,
          (PD.record true ⟨1, 2, .item [6], 7⟩ (.item [2]) .nilPd).hiItm,
          (PD.record true ⟨1, 2, .item [6], 7⟩ (.item [2]) .nilPd).rightSibling⟩
        (PD.record true ⟨2, 3, .item [8], 1⟩ (.item [1]) .nilPd).hiItm
        (PD.record true ⟨1, 2, .item [6], 7⟩ (.item [2]) .nilPd)
        (PD.record true ⟨2, 3, .item [8], 1⟩ (.item [1]) .nilPd)) :=
  C5_merge (PD.record true ⟨2, 3, .item [8], 1⟩ (.item [1]) .nilPd)
    (PD.record true ⟨1, 2, .item [6], 7⟩ (.item [2]) .nilPd)
    (by decide) (by decide) (by decide)

/-! ## C10: Marshal emits record deltas only in range -/

/-- C10: during `Marshal`, a record delta (insert or delete) contributes its
`{op, len, bytes}` encoding exactly when its item is below the page head's
`hiItm` (`InRange`); a record delta whose item is at or above `hiItm` is
silently omitted — the surrounding output is exactly as if the delta were not
in the chain. -/
theorem C10_marshal_inRange (cmp : Itm → Itm → Int) (head : PD) (hne : head ≠ PD.nilPd) :
    (∀ ri, InRange cmp head ri = true ↔ cmp ri head.hiItm < 0) ∧
    (∀ ins h ri next, cmp ri head.hiItm < 0 →
      marshalLoop cmp head (PD.record ins h ri next) =
        putBE 2 (if ins then opInsertDelta else opDeleteDelta) ++
          (putBE 2 ri.size ++ (ri.bytes ++ marshalLoop cmp head next))) ∧
    (∀ ins h ri next, 0 ≤ cmp ri head.hiItm →
      marshalLoop cmp head (PD.record ins h ri next) = marshalLoop cmp head next) := by
  have hinr : ∀ ri, InRange cmp head ri = true ↔ cmp ri head.hiItm < 0 := by
    intro ri
    simp [InRange, hne]
  refine ⟨hinr, ?_, ?_⟩
  · intro ins h ri next hlt
    rw [marshalLoop, if_pos ((hinr ri).mpr hlt)]
    simp [List.append_assoc]
  · intro ins h ri next hge
    rw [marshalLoop, if_neg ?_]
    · simp
    · rw [hinr ri]
      omega

/-- C10 (witness): a page bounded by key `[5]` emits its in-range insert of
`[1]` and omits its out-of-range insert of `[9]`. -/
theorem C10_marshal_inRange_witness :
    (InRange cmpB (PD.base ⟨0, 0, .item [5], 0⟩ []) (.item [1]) = true ↔
      cmpB (.item [1]) (PD.base ⟨0, 0, .item [5], 0⟩ ([] : List Itm)).hiItm < 0) ∧
    (cmpB (.item [1]) (PD.base ⟨0, 0, .item [5], 0⟩ ([] : List Itm)).hiItm < 0 →
      marshalLoop cmpB (PD.base ⟨0, 0, .item [5], 0⟩ [])
          (PD.record true ⟨1, 1, .item [5], 0⟩ (.item [1]) .nilPd) =
        putBE 2 (if true then opInsertDelta else opDeleteDelta) ++
          (putBE 2 (Itm.item [1]).size ++ ((Itm.item [1]).bytes ++
            marshalLoop cmpB (PD.base ⟨0, 0, .item [5], 0⟩ []) .nilPd))) ∧
    (0 ≤ cmpB (.item [9]) (PD.base ⟨0, 0, .item [5], 0⟩ ([] : List Itm)).hiItm →
      marshalLoop cmpB (PD.base ⟨0, 0, .item [5], 0⟩ [])
          (PD.record true ⟨1, 1, .item [5], 0⟩ (.item [9]) .nilPd) =
        marshalLoop cmpB (PD.base ⟨0, 0, .item [5], 0⟩ []) .nilPd) :=
  ⟨(C10_marshal_inRange cmpB (PD.base ⟨0, 0, .item [5], 0⟩ []) (by decide)).1 (.item [1]),
   fun hlt => (C10_marshal_inRange cmpB (PD.base ⟨0, 0, .item [5], 0⟩ []) (by decide)).2.1
     true ⟨1, 1, .item [5], 0⟩ (.item [1]) .nilPd hlt,
   fun hge => (C10_marshal_inRange cmpB (PD.base ⟨0, 0, .item [5], 0⟩ []) (by decide)).2.2
     true ⟨1, 1, .item [5], 0⟩ (.item [9]) .nilPd hge⟩

/-! ## C3: page Lookup -/

/-- Correctness of the `sort.Search` loop: with enough fuel and a monotone
predicate, the result is the frontier — everything below it fails `f`, and the
result either satisfies `f` or is the right endpoint. -/
theorem goSearch_spec (f : Nat → Bool) (n : Nat)
    (hmono : ∀ i j, i ≤ j → j < n → f i = true → f j = true) :
    ∀ fuel i j, j - i ≤ fuel → i ≤ j → j ≤ n →
      (∀ k, k < i → f k = false) → (j = n ∨ f j = true) →
      (∀ k, k < goSearch f fuel i j → f k = false) ∧
      (goSearch f fuel i j = n ∨ f (goSearch f fuel i j) = true) ∧
      i ≤ goSearch f fuel i j ∧ goSearch f fuel i j ≤ j := by
  intro fuel
  induction fuel with
  | zero =>
    intro i j hf hij hjn hlow hhigh
    have hij' : i = j := by omega
    subst hij'
    exact ⟨hlow, hhigh.imp (fun h => h) (fun h => h), le_refl i, le_refl i⟩
  | succ fuel ih =>
    intro i j hf hij hjn hlow hhigh
    rw [goSearch]
    by_cases hlt : i < j
    · rw [if_pos hlt]
      have hh1 : i ≤ (i + j) / 2 := by omega
      have hh2 : (i + j) / 2 < j := by omega
      by_cases hfh : f ((i + j) / 2) = true
      · rw [if_pos hfh]
        obtain ⟨a1, a2, a3, a4⟩ := ih i ((i + j) / 2) (by omega) hh1 (by omega) hlow
          (Or.inr hfh)
        exact ⟨a1, a2, a3, by omega⟩
      · rw [if_neg hfh]
        have hlow' : ∀ k, k < (i + j) / 2 + 1 → f k = false := by
          intro k hk
          rcases Nat.lt_or_ge k i with hki | hki
          · exact hlow k hki
          · cases hfk : f k with
            | false => rfl
            | true =>
              exact absurd (hmono k ((i + j) / 2) (by omega) (by omega) hfk) hfh
        obtain ⟨a1, a2, a3, a4⟩ := ih ((i + j) / 2 + 1) j (by omega) (by omega) hjn hlow' hhigh
        exact ⟨a1, a2, by omega, a4⟩
    · rw [if_neg hlt]
      have hij' : i = j := by omega
      subst hij'
      exact ⟨hlow, hhigh.imp (fun h => h) (fun h => h), le_refl i, le_refl i⟩

theorem sortSearch_spec (f : Nat → Bool) (n : Nat)
    (hmono : ∀ i j, i ≤ j → j < n → f i = true → f j = true) :
    (∀ k, k < sortSearch n f → f k = false) ∧
    (sortSearch n f = n ∨ f (sortSearch n f) = true) ∧ sortSearch n f ≤ n := by
  obtain ⟨h1, h2, _, h4⟩ := goSearch_spec f n hmono (n + 1) 0 n (by omega) (by omega)
    (le_refl n) (by omega) (Or.inl rfl)
  exact ⟨h1, h2, h4⟩

/-- C3: `page.Lookup` walks from the head, first following `rightSibling`
when `compare(item, head.hiItm) ≥ 0`; per delta, an insertDelta of equal key
returns its item, a deleteDelta of equal key returns not-found, a
mergePageDelta with `item ≥ pivot` continues into `mergeSibling` (else into
`next`), a splitPageDelta is skipped, and a basePage resolves the item by
binary search on `items[]`: writing `idx` for the search frontier, every
entry below `idx` compares below the item, and the lookup returns
`items[idx]` exactly when `idx` is in bounds and compares equal. -/
theorem C3_lookup (cmp : Itm → Itm → Int) (gd : Nat → PD) (itm : Itm) :
    (Lookup cmp gd PD.nilPd itm = .ok none) ∧
    (∀ head : PD, head ≠ PD.nilPd → 0 ≤ cmp itm head.hiItm →
      Lookup cmp gd head itm = lookupLoop cmp itm (gd head.rightSibling)) ∧
    (∀ head : PD, head ≠ PD.nilPd → cmp itm head.hiItm < 0 →
      Lookup cmp gd head itm = lookupLoop cmp itm head) ∧
    (∀ h ri next, cmp ri itm = 0 →
      lookupLoop cmp itm (PD.record true h ri next) = .ok (some ri)) ∧
    (∀ h ri next, cmp ri itm ≠ 0 →
      lookupLoop cmp itm (PD.record true h ri next) = lookupLoop cmp itm next) ∧
    (∀ h ri next, cmp ri itm = 0 →
      lookupLoop cmp itm (PD.record false h ri next) = .ok none) ∧
    (∀ h ri next, cmp ri itm ≠ 0 →
      lookupLoop cmp itm (PD.record false h ri next) = lookupLoop cmp itm next) ∧
    (∀ h mi sib next, 0 ≤ cmp itm mi →
      lookupLoop cmp itm (PD.merge h mi sib next) = lookupLoop cmp itm sib) ∧
    (∀ h mi sib next, cmp itm mi < 0 →
      lookupLoop cmp itm (PD.merge h mi sib next) = lookupLoop cmp itm next) ∧
    (∀ h si next, lookupLoop cmp itm (PD.split h si next) = lookupLoop cmp itm next) ∧
    (∀ h items, (∀ i j : Nat, i ≤ j → j < items.length →
        0 ≤ cmp (items.getD i .maxItem) itm → 0 ≤ cmp (items.getD j .maxItem) itm) →
      ∃ idx, idx = sortSearch items.length
          (fun i => decide (0 ≤ cmp (items.getD i .maxItem) itm)) ∧
        idx ≤ items.length ∧
        (∀ k, k < idx → cmp (items.getD k .maxItem) itm < 0) ∧
        (idx < items.length → 0 ≤ cmp (items.getD idx .maxItem) itm) ∧
        lookupLoop cmp itm (PD.base h items) =
          if idx < items.length ∧ cmp (items.getD idx .maxItem) itm = 0 then
            .ok (some (items.getD idx .maxItem))
          else .ok none) := by
  refine ⟨rfl, ?_, ?_, ?_, ?_, ?_, ?_, ?_, ?_, ?_, ?_⟩
  · intro head hne hge
    cases head <;>
      first
        | exact absurd rfl hne
        | (rw [Lookup, if_pos hge] <;> simp)
  · intro head hne hlt
    cases head <;>
      first
        | exact absurd rfl hne
        | (rw [Lookup, if_neg (by omega)] <;> simp)
  · intro h ri next heq
    rw [lookupLoop, if_pos heq]
  · intro h ri next heq
    rw [lookupLoop, if_neg heq]
  · intro h ri next heq
    rw [lookupLoop, if_pos heq]
  · intro h ri next heq
    rw [lookupLoop, if_neg heq]
  · intro h mi sib next hge
    rw [lookupLoop, if_pos hge]
  · intro h mi sib next hlt
    rw [lookupLoop, if_neg (by omega)]
  · intro h si next
    rw [lookupLoop]
  · intro h items hmono
    refine ⟨sortSearch items.length
      (fun i => decide (0 ≤ cmp (items.getD i .maxItem) itm)), rfl, ?_, ?_, ?_, ?_⟩
    · exact (sortSearch_spec _ _ (fun i j hij hj hf => by
        simpa using hmono i j hij hj (by simpa using hf))).2.2
    · intro k hk
      have := (sortSearch_spec (fun i => decide (0 ≤ cmp (items.getD i .maxItem) itm))
        items.length (fun i j hij hj hf => by
          simpa using hmono i j hij hj (by simpa using hf))).1 k hk
      simpa using this
    · intro hidx
      rcases (sortSearch_spec (fun i => decide (0 ≤ cmp (items.getD i .maxItem) itm))
        items.length (fun i j hij hj hf => by
          simpa using hmono i j hij hj (by simpa using hf))).2.1 with h | h
      · omega
      · simpa using h
    · rw [lookupLoop]

/-- C3 (witness): each per-delta behaviour exercised on small concrete chains
with the byte comparator, looking up key `[3]`. -/
theorem C3_lookup_witness :
    Lookup cmpB (fun _ => PD.nilPd) PD.nilPd (.item [3]) = .ok none ∧
    Lookup cmpB (fun _ => PD.nilPd) (PD.record true ⟨1, 1, .item [2], 4⟩ (.item [0]) .nilPd)
        (.item [3]) = lookupLoop cmpB (.item [3]) PD.nilPd ∧
    Lookup cmpB (fun _ => PD.nilPd) (PD.record true ⟨1, 1, .item [9], 4⟩ (.item [0]) .nilPd)
        (.item [3]) =
      lookupLoop cmpB (.item [3]) (PD.record true ⟨1, 1, .item [9], 4⟩ (.item [0]) .nilPd) ∧
    lookupLoop cmpB (.item [3]) (PD.record true ⟨0, 0, .maxItem, 0⟩ (.item [3]) .nilPd) =
      .ok (some (.item [3])) ∧
    lookupLoop cmpB (.item [3]) (PD.record true ⟨0, 0, .maxItem, 0⟩ (.item [7]) .nilPd) =
      lookupLoop cmpB (.item [3]) .nilPd ∧
    lookupLoop cmpB (.item [3]) (PD.record false ⟨0, 0, .maxItem, 0⟩ (.item [3]) .nilPd) =
      .ok none ∧
    lookupLoop cmpB (.item [3]) (PD.record false ⟨0, 0, .maxItem, 0⟩ (.item [7]) .nilPd) =
      lookupLoop cmpB (.item [3]) .nilPd ∧
    lookupLoop cmpB (.item [3]) (PD.merge ⟨0, 0, .maxItem, 0⟩ (.item [2])
        (PD.base ⟨0, 0, .maxItem, 0⟩ []) .nilPd) =
      lookupLoop cmpB (.item [3]) (PD.base ⟨0, 0, .maxItem, 0⟩ []) ∧
    lookupLoop cmpB (.item [3]) (PD.merge ⟨0, 0, .maxItem, 0⟩ (.item [5])
        (PD.base ⟨0, 0, .maxItem, 0⟩ []) .nilPd) =
      lookupLoop cmpB (.item [3]) .nilPd ∧
    lookupLoop cmpB (.item [3]) (PD.split ⟨0, 0, .maxItem, 0⟩ (.item [2]) .nilPd) =
      lookupLoop cmpB (.item [3]) .nilPd ∧
    (∃ idx, idx = sortSearch 3
        (fun i => decide (0 ≤ cmpB (([Itm.item [1], .item [3], .item [5]] : List Itm).getD i
          .maxItem) (.item [3]))) ∧
      idx ≤ 3 ∧
      (∀ k, k < idx →
        cmpB (([Itm.item [1], .item [3], .item [5]] : List Itm).getD k .maxItem)
          (.item [3]) < 0) ∧
      (idx < 3 →
        0 ≤ cmpB (([Itm.item [1], .item [3], .item [5]] : List Itm).getD idx .maxItem)
          (.item [3])) ∧
      lookupLoop cmpB (.item [3])
          (PD.base ⟨0, 0, .maxItem, 0⟩ [.item [1], .item [3], .item [5]]) =
        if idx < 3 ∧ cmpB (([Itm.item [1], .item [3], .item [5]] : List Itm).getD idx
            .maxItem) (.item [3]) = 0 then
          .ok (some (([Itm.item [1], .item [3], .item [5]] : List Itm).getD idx .maxItem))
        else .ok none) := by
  have T := C3_lookup cmpB (fun _ => PD.nilPd) (.item [3])
  exact ⟨T.1,
    T.2.1 _ (by decide) (by decide),
    T.2.2.1 _ (by decide) (by decide),
    T.2.2.2.1 _ _ _ (by decide),
    T.2.2.2.2.1 _ _ _ (by decide),
    T.2.2.2.2.2.1 _ _ _ (by decide),
    T.2.2.2.2.2.2.1 _ _ _ (by decide),
    T.2.2.2.2.2.2.2.1 _ _ _ _ (by decide),
    T.2.2.2.2.2.2.2.2.1 _ _ _ _ (by decide),
    T.2.2.2.2.2.2.2.2.2.1 _ _ _,
    T.2.2.2.2.2.2.2.2.2.2 ⟨0, 0, .maxItem, 0⟩ [.item [1], .item [3], .item [5]] (by
      intro i j hij hj hf
      have hj3 : j < 3 := by simpa using hj
      interval_cases j <;> interval_cases i <;> revert hf <;> decide)⟩

/-! ## C9: MaxItem round-trips through Marshal / Unmarshal -/

theorem Marshal_decomp (cmp : Itm → Itm → Int) (gi : Nat → Itm) (head : PD)
    (hne : head ≠ PD.nilPd) :
    Marshal cmp gi head = putBE 2 head.chainLen ++ (putBE 2 head.numItems ++
      (marshalItm head.hiItm ++ (marshalItm (gi head.rightSibling) ++
        marshalLoop cmp head head))) := by
  cases head <;>
    first
      | exact absurd rfl hne
      | (rw [Marshal] <;> simp [List.append_assoc])

theorem allHiItm_chainOf (ni : Nat) (v : Itm) (rs : Nat) (ns : List PNode) :
    allHiItm (chainOf ni v rs ns) v := by
  induction ns with
  | nil => trivial
  | cons n rest ih => cases n <;> simp [chainOf, allHiItm, ih]

/-- C9: a page head whose `hiItm` is the `MaxItem` sentinel marshals the
`hiItm` field as a `u16` length of 0 (the two bytes after `chainLen` and
`numItems`), and `Unmarshal` of any encoding whose `hiItm` length field reads
0 restores `hiItm = MaxItem`, both as the parsed bound and in every delta of
the rebuilt chain; composing the two, the `+∞` bound survives a
marshal/unmarshal round-trip. -/
theorem C9_maxItem_roundtrip (cmp : Itm → Itm → Int) (gi : Nat → Itm) (gpid : Itm → Nat) :
    (∀ head : PD, head ≠ PD.nilPd → head.hiItm = .maxItem →
      ((Marshal cmp gi head).drop 4).take 2 = putBE 2 0) ∧
    (∀ data : List Nat, readBE ((data.drop 4).take 2) = 0 →
      ∀ res, Unmarshal gpid data = .ok res →
        res.hiItm = .maxItem ∧ allHiItm res.head .maxItem) ∧
    (∀ head : PD, head ≠ PD.nilPd → head.hiItm = .maxItem →
      ∀ res, Unmarshal gpid (Marshal cmp gi head) = .ok res →
        res.hiItm = .maxItem ∧ allHiItm res.head .maxItem) := by
  have parta : ∀ head : PD, head ≠ PD.nilPd → head.hiItm = .maxItem →
      ((Marshal cmp gi head).drop 4).take 2 = putBE 2 0 := by
    intro head hne hhi
    rw [Marshal_decomp cmp gi head hne, hhi]
    rw [show (4 : Nat) = 2 + 2 from rfl, ← List.drop_drop, drop_putBE_append,
      drop_putBE_append]
    simp only [marshalItm]
    exact take_putBE_append 2 0 _
  have partb : ∀ data : List Nat, readBE ((data.drop 4).take 2) = 0 →
      ∀ res, Unmarshal gpid data = .ok res →
        res.hiItm = .maxItem ∧ allHiItm res.head .maxItem := by
    intro data hl res hres
    have hhi : (parseHeader gpid data).hiItm = .maxItem := by
      simp [parseHeader, hl]
    rw [Unmarshal] at hres
    cases hp : parseDeltasLoop ((parseHeader gpid data).chainLen : Int)
        (parseHeader gpid data).rest.length (parseHeader gpid data).rest with
    | error e =>
      rw [hp] at hres
      simp [Except.map] at hres
    | ok ns =>
      rw [hp] at hres
      simp only [Except.map, Except.ok.injEq] at hres
      subst hres
      refine ⟨hhi, ?_⟩
      show allHiItm (chainOf (parseHeader gpid data).numItems (parseHeader gpid data).hiItm
        (parseHeader gpid data).rightSibling ns) Itm.maxItem
      rw [hhi]
      exact allHiItm_chainOf _ _ _ ns
  refine ⟨parta, partb, ?_⟩
  intro head hne hhi res hres
  refine partb _ ?_ res hres
  rw [parta head hne hhi, readBE_putBE]
  rfl

/-- C9 (witness): a concrete page bounded by `MaxItem` (one insert delta over
a one-item base) round-trips: the marshaled `hiItm` length field is zero and
unmarshalling restores `MaxItem` everywhere, on the concrete decode result. -/
theorem C9_maxItem_roundtrip_witness :
    (((Marshal cmpB (fun _ => Itm.maxItem)
        (PD.record true ⟨1, 1, .maxItem, 0⟩ (.item [2])
          (PD.base ⟨0, 1, .maxItem, 0⟩ [.item [2]]))).drop 4).take 2 = putBE 2 0) ∧
    ((⟨1, 1, .maxItem, 0, .nilPd⟩ : UnmarshalRes).hiItm = .maxItem ∧
      allHiItm (⟨1, 1, .maxItem, 0, .nilPd⟩ : UnmarshalRes).head .maxItem) ∧
    ((⟨1, 1, .maxItem, 0,
        .record true ⟨1, 1, .maxItem, 0⟩ (.item [2])
          (.base ⟨0, 1, .maxItem, 0⟩ [.item [2]])⟩ : UnmarshalRes).hiItm = .maxItem ∧
      allHiItm (⟨1, 1, .maxItem, 0,
        .record true ⟨1, 1, .maxItem, 0⟩ (.item [2])
          (.base ⟨0, 1, .maxItem, 0⟩ [.item [2]])⟩ : UnmarshalRes).head .maxItem) := by
  have T := C9_maxItem_roundtrip cmpB (fun _ => Itm.maxItem) (fun _ => 0)
  refine ⟨T.1 _ (by decide) (by decide), T.2.1 [0, 1, 0, 1, 0, 0, 0, 0] (by decide) _ ?_,
    T.2.2 (PD.record true ⟨1, 1, .maxItem, 0⟩ (.item [2])
      (PD.base ⟨0, 1, .maxItem, 0⟩ [.item [2]])) (by decide) (by decide) _ ?_⟩
  · rfl
  · rfl

/-! ## C4: page Split -/

theorem clampLoop_spec (p : Nat → Bool) (m0 : Nat) :
    clampLoop p m0 ≤ m0 ∧ (clampLoop p m0 = 0 ∨ p (clampLoop p m0) = true) ∧
      (∀ k, clampLoop p m0 < k → k ≤ m0 → p k = false) := by
  induction m0 with
  | zero => exact ⟨le_refl 0, Or.inl rfl, fun k h1 h2 => absurd h2 (by omega)⟩
  | succ m ih =>
    rw [clampLoop]
    by_cases h : p (m + 1) = true
    · rw [if_pos h]
      exact ⟨le_refl _, Or.inr h, fun k h1 h2 => absurd h1 (by omega)⟩
    · rw [if_neg h]
      obtain ⟨i1, i2, i3⟩ := ih
      refine ⟨by omega, i2, ?_⟩
      intro k h1 h2
      rcases Nat.lt_or_ge k (m + 1) with hk | hk
      · exact i3 k h1 (by omega)
      · have hk1 : k = m + 1 := by omega
        rw [hk1]
        cases hpk : p (m + 1) with
        | false => rfl
        | true => exact absurd hpk h

theorem mem_insSorted (cmp : Itm → Itm → Int) (x y : PgItem) (l : List PgItem)
    (hy : y ∈ insSorted cmp x l) : y = x ∨ y ∈ l := by
  induction l with
  | nil => simpa [insSorted] using hy
  | cons z zs ih =>
    rw [insSorted] at hy
    split at hy
    · rcases List.mem_cons.mp hy with h | h
      · exact Or.inr (List.mem_cons.mpr (Or.inl h))
      · rcases ih h with h2 | h2
        · exact Or.inl h2
        · exact Or.inr (List.mem_cons.mpr (Or.inr h2))
    · rcases List.mem_cons.mp hy with h | h
      · exact Or.inl h
      · exact Or.inr h

theorem mem_stableSort (cmp : Itm → Itm → Int) (y : PgItem) (l : List PgItem)
    (hy : y ∈ stableSort cmp l) : y ∈ l := by
  induction l with
  | nil => simpa [stableSort] using hy
  | cons z zs ih =>
    rw [stableSort] at hy
    rcases mem_insSorted cmp z y _ hy with h | h
    · exact List.mem_cons.mpr (Or.inl h)
    · exact List.mem_cons.mpr (Or.inr (ih h))

theorem mem_mergeListsF (cmp : Itm → Itm → Int) (fuel : Nat) :
    ∀ (bs ds : List PgItem) (y : PgItem), y ∈ mergeListsF cmp fuel bs ds →
      y ∈ bs ∨ y ∈ ds := by
  induction fuel with
  | zero =>
    intro bs ds y hy
    exact List.mem_append.mp hy
  | succ fuel ih =>
    intro bs ds y hy
    match bs, ds with
    | [], ds => exact Or.inr hy
    | b :: bs, [] => exact Or.inl hy
    | b :: bs, d :: ds =>
      rw [mergeListsF] at hy
      split at hy
      · rcases List.mem_cons.mp hy with h | h
        · exact Or.inl (List.mem_cons.mpr (Or.inl h))
        · rcases ih bs (d :: ds) y h with h2 | h2
          · exact Or.inl (List.mem_cons.mpr (Or.inr h2))
          · exact Or.inr h2
      · rcases List.mem_cons.mp hy with h | h
        · exact Or.inr (List.mem_cons.mpr (Or.inl h))
        · rcases ih (b :: bs) ds y h with h2 | h2
          · exact Or.inl h2
          · exact Or.inr (List.mem_cons.mpr (Or.inr h2))

theorem mem_collectAux (cmp : Itm → Itm → Int) (lo hi : Itm) :
    ∀ (pd : PD) (acc : List PgItem) (y : PgItem), y ∈ collectAux cmp lo hi pd acc →
      y ∈ acc ∨ inRangeLoHi cmp lo hi y.itm = true := by
  intro pd
  induction pd with
  | nilPd =>
    intro acc y hy
    exact Or.inl (mem_stableSort cmp y acc hy)
  | record ins h ri next ih =>
    intro acc y hy
    rw [collectAux] at hy
    rcases ih _ y hy with hacc | hin
    · by_cases hr : inRangeLoHi cmp lo hi ri = true
      · rw [if_pos hr] at hacc
        rcases List.mem_append.mp hacc with h1 | h1
        · exact Or.inl h1
        · have : y = ⟨ins, ri⟩ := by simpa using h1
          subst this
          exact Or.inr hr
      · rw [if_neg hr] at hacc
        exact Or.inl hacc
    · exact Or.inr hin
  | split h si next ih =>
    intro acc y hy
    rw [collectAux] at hy
    exact ih acc y hy
  | merge h mi sib next ihsib ihnext =>
    intro acc y hy
    rw [collectAux] at hy
    rcases ihnext _ y hy with hacc | hin
    · rcases List.mem_append.mp hacc with h1 | h1
      · exact Or.inl h1
      · rcases ihsib [] y h1 with h2 | h2
        · exact absurd h2 (List.not_mem_nil y)
        · exact Or.inr h2
    · exact Or.inr hin
  | flush h o next ih =>
    intro acc y hy
    rw [collectAux] at hy
    exact ih acc y hy
  | remove h next ih =>
    intro acc y hy
    rw [collectAux] at hy
    exact ih acc y hy
  | base h items =>
    intro acc y hy
    rw [collectAux] at hy
    rcases mem_mergeListsF cmp _ _ _ y hy with h1 | h1
    · obtain ⟨x, hx, hyx⟩ := List.mem_map.mp h1
      have hxr := (List.mem_filter.mp hx).2
      rw [← hyx]
      exact Or.inr hxr
    · exact Or.inl (mem_stableSort cmp y acc h1)

theorem mem_collectItems (cmp : Itm → Itm → Int) (head : PD) (lo hi : Itm) (x : Itm)
    (hx : x ∈ collectItems cmp head lo hi) : cmp x hi < 0 ∧ 0 ≤ cmp x lo := by
  obtain ⟨y, hy, hyx⟩ := List.mem_map.mp hx
  have hy' := (List.mem_filter.mp hy).1
  rcases mem_collectAux cmp lo hi head [] y hy' with h | h
  · exact absurd h (List.not_mem_nil y)
  · rw [inRangeLoHi, Bool.and_eq_true, decide_eq_true_iff, decide_eq_true_iff] at h
    rw [← hyx]
    exact h

theorem mem_take_getD (l : List Itm) (n : Nat) (d x : Itm) (hx : x ∈ l.take n) :
    ∃ i, i < n ∧ i < l.length ∧ l.getD i d = x := by
  obtain ⟨i, hi, hget⟩ := List.mem_iff_getElem.mp hx
  have hlen : i < n ⊓ l.length := by simpa [List.length_take] using hi
  have h1 : i < n := lt_of_lt_of_le hlen inf_le_left
  have h2 : i < l.length := lt_of_lt_of_le hlen inf_le_right
  refine ⟨i, h1, h2, ?_⟩
  rw [List.getD_eq_getElem l d h2, ← hget, List.getElem_take]

theorem mem_drop_getD (l : List Itm) (n : Nat) (d x : Itm) (hx : x ∈ l.drop n) :
    ∃ i, n ≤ i ∧ i < l.length ∧ l.getD i d = x := by
  obtain ⟨i, hi, hget⟩ := List.mem_iff_getElem.mp hx
  have hlen : i < l.length - n := by simpa [List.length_drop] using hi
  refine ⟨n + i, by omega, by omega, ?_⟩
  rw [List.getD_eq_getElem l d (by omega), ← hget, List.getElem_drop]

/-- `len(bp.items[:mid])` counts exactly the base items strictly below the
pivot when the base items are strictly sorted (assuming an antisymmetric
comparator that is reflexive at the pivot). -/
theorem filter_below_pivot_length (cmp : Itm → Itm → Int) (items : List Itm) (mid : Nat)
    (hmid : mid < items.length)
    (hsort : ∀ i j : Nat, i < j → j < items.length →
      cmp (items.getD i .maxItem) (items.getD j .maxItem) < 0)
    (hasym : ∀ a b : Itm, cmp a b < 0 → 0 < cmp b a)
    (hrefl : cmp (items.getD mid .maxItem) (items.getD mid .maxItem) = 0) :
    (items.filter (fun x => decide (cmp x (items.getD mid .maxItem) < 0))).length = mid := by
  have key : items.filter (fun x => decide (cmp x (items.getD mid .maxItem) < 0)) =
      (items.take mid).filter (fun x => decide (cmp x (items.getD mid .maxItem) < 0)) ++
      (items.drop mid).filter (fun x => decide (cmp x (items.getD mid .maxItem) < 0)) := by
    rw [← List.filter_append, List.take_append_drop]
  rw [key, List.length_append]
  have htake : (items.take mid).filter
      (fun x => decide (cmp x (items.getD mid .maxItem) < 0)) = items.take mid := by
    rw [List.filter_eq_self]
    intro x hx
    obtain ⟨i, hi1, hi2, hi3⟩ := mem_take_getD items mid .maxItem x hx
    rw [← hi3]
    simpa using hsort i mid hi1 hmid
  have hdrop : (items.drop mid).filter
      (fun x => decide (cmp x (items.getD mid .maxItem) < 0)) = [] := by
    rw [List.filter_eq_nil_iff]
    intro x hx
    obtain ⟨i, hi1, hi2, hi3⟩ := mem_drop_getD items mid .maxItem x hx
    rw [← hi3]
    rcases Nat.eq_or_lt_of_le hi1 with hi | hi
    · subst hi
      simp only [decide_eq_true_eq]
      omega
    · have := hasym _ _ (hsort mid i hi hi2)
      simp only [decide_eq_true_eq]
      omega
  rw [htake, hdrop, List.length_take, inf_eq_left.mpr (le_of_lt hmid)]
  simp

theorem findBase_ne_nilPd (head : PD) (x : Hdr × List Itm) (h : findBase head = some x) :
    head ≠ PD.nilPd := by
  intro he
  subst he
  simp [findBase] at h

theorem newBasePage_of_ne (head : PD) (itms : List Itm) (hne : head ≠ PD.nilPd) :
    newBasePage head itms =
      .base ⟨0, itms.length % 65536, head.hiItm, head.rightSibling⟩ itms := by
  simp [newBasePage, hne]

/-- C4: `Split` walks to the basePage and clamps the candidate pivot index
`items.length / 2` downward to the largest index whose item is below the
head's `hiItm` (stopping at 0); if the clamp reaches 0 the split is declined
(`Split` returns nil).  On success the new page's head is a fresh basePage
holding exactly `collectItems(head, pivot, hiItm)` — all of which lie in
`[pivot, hiItm)` — carrying the old page's `hiItm` and `rightSibling`, while
the old page's new head is a splitPageDelta with `hiItm = pivot`,
`rightSibling = pid`, incremented `chainLen`, and `numItems = mid`, which for
a strictly-sorted base (under an asymmetric comparator reflexive at the
pivot) is exactly the number of base items below the pivot. -/
theorem C4_split (cmp : Itm → Itm → Int) (head : PD) (pid : Nat)
    (bh : Hdr) (items : List Itm) (hfb : findBase head = some (bh, items))
    (mid : Nat)
    (hmid : mid = clampLoop (fun m => decide (cmp (items.getD m .maxItem) head.hiItm < 0))
      (items.length / 2)) :
    (mid ≤ items.length / 2 ∧
      (mid = 0 ∨ cmp (items.getD mid .maxItem) head.hiItm < 0) ∧
      (∀ k, mid < k → k ≤ items.length / 2 →
        ¬ cmp (items.getD k .maxItem) head.hiItm < 0)) ∧
    (mid = 0 → Split cmp head pid = .ok none) ∧
    (0 < mid →
      Split cmp head pid = .ok (some
        { newHead := PD.base ⟨0,
            (collectItems cmp head (items.getD mid .maxItem) head.hiItm).length % 65536,
            head.hiItm, head.rightSibling⟩
            (collectItems cmp head (items.getD mid .maxItem) head.hiItm),
          oldHead := PD.split ⟨(head.chainLen + 1) % 65536, mid % 65536,
            items.getD mid .maxItem, pid⟩ (items.getD mid .maxItem) head }) ∧
      (∀ x ∈ collectItems cmp head (items.getD mid .maxItem) head.hiItm,
        cmp x head.hiItm < 0 ∧ 0 ≤ cmp x (items.getD mid .maxItem)) ∧
      ((∀ i j : Nat, i < j → j < items.length →
          cmp (items.getD i .maxItem) (items.getD j .maxItem) < 0) →
        (∀ a b : Itm, cmp a b < 0 → 0 < cmp b a) →
        cmp (items.getD mid .maxItem) (items.getD mid .maxItem) = 0 →
        (items.filter (fun x => decide (cmp x (items.getD mid .maxItem) < 0))).length =
          mid)) := by
  have hne := findBase_ne_nilPd head (bh, items) hfb
  obtain ⟨c1, c2, c3⟩ := clampLoop_spec
    (fun m => decide (cmp (items.getD m .maxItem) head.hiItm < 0)) (items.length / 2)
  rw [← hmid] at c1 c2 c3
  refine ⟨⟨c1, ?_, ?_⟩, ?_, ?_⟩
  · rcases c2 with h | h
    · exact Or.inl h
    · exact Or.inr (by simpa using h)
  · intro k h1 h2
    have := c3 k h1 h2
    simpa using this
  · intro h0
    simp only [Split, hfb]
    rw [← hmid, if_neg (by omega)]
  · intro hpos
    have hEq : Split cmp head pid = .ok (some
        { newHead := PD.base ⟨0,
            (collectItems cmp head (items.getD mid .maxItem) head.hiItm).length % 65536,
            head.hiItm, head.rightSibling⟩
            (collectItems cmp head (items.getD mid .maxItem) head.hiItm),
          oldHead := PD.split ⟨(head.chainLen + 1) % 65536, mid % 65536,
            items.getD mid .maxItem, pid⟩ (items.getD mid .maxItem) head }) := by
      simp only [Split, hfb]
      rw [← hmid, if_pos hpos, newBasePage_of_ne head _ hne]
    refine ⟨hEq, ?_, ?_⟩
    · intro x hx
      exact mem_collectItems cmp head _ _ x hx
    · intro hsort hasym hrefl
      have hmidlt : mid < items.length := by omega
      exact filter_below_pivot_length cmp items mid hmidlt hsort hasym hrefl

theorem listCmp_refl (as : List Nat) : listCmp as as = 0 := by
  induction as with
  | nil => rfl
  | cons a as ih => simp [listCmp, ih]

theorem cmpB_refl (a : Itm) : cmpB a a = 0 := by
  cases a with
  | maxItem => rfl
  | item bs => simp [cmpB, listCmp_refl]

theorem listCmp_asym (as : List Nat) : ∀ bs, listCmp as bs < 0 → 0 < listCmp bs as := by
  induction as with
  | nil =>
    intro bs h
    cases bs with
    | nil => simp [listCmp] at h
    | cons b bs => simp [listCmp]
  | cons a as ih =>
    intro bs h
    cases bs with
    | nil => simp [listCmp] at h
    | cons b bs =>
      rw [listCmp] at h ⊢
      by_cases hab : a < b
      · rw [if_neg (by omega), if_pos hab]
        omega
      · rw [if_neg hab] at h
        by_cases hba : b < a
        · rw [if_pos hba] at h
          omega
        · rw [if_neg hba] at h
          rw [if_neg hba, if_neg hab]
          exact ih bs h

theorem cmpB_asym (a b : Itm) (h : cmpB a b < 0) : 0 < cmpB b a := by
  cases a <;> cases b <;> simp_all [cmpB]
  · exact listCmp_asym _ _ h

/-- C4 (witness): splitting a concrete page (insert delta over the sorted
base `[1] [2] [5] [7]`, `hiItm = [9]`): the clamp keeps `mid = 2`, the pivot
is `[5]`, the new base holds exactly the collected items `[5] [7]` of
`[pivot, hiItm)`, and the old head becomes a splitPageDelta with `hiItm =
[5]`, `numItems = 2` — which equals the number of base items below `[5]`. -/
theorem C4_split_witness :
    ((2 : Nat) ≤ 2 ∧ ((2 : Nat) = 0 ∨ cmpB (.item [5]) (.item [9]) < 0) ∧
      (∀ k, 2 < k → k ≤ 2 →
        ¬ cmpB (([Itm.item [1], .item [2], .item [5], .item [7]] : List Itm).getD k .maxItem)
          (.item [9]) < 0)) ∧
    Split cmpB c4Head 8 = .ok (some ⟨PD.base ⟨0, 2, .item [9], 3⟩ [.item [5], .item [7]],
      PD.split ⟨2, 2, .item [5], 8⟩ (.item [5]) c4Head⟩) ∧
    (∀ x ∈ collectItems cmpB c4Head (.item [5]) (.item [9]),
      cmpB x (.item [9]) < 0 ∧ 0 ≤ cmpB x (.item [5])) ∧
    (([Itm.item [1], .item [2], .item [5], .item [7]] : List Itm).filter
      (fun x => decide (cmpB x (.item [5]) < 0))).length = 2 := by
  have T := C4_split cmpB c4Head 8 ⟨0, 4, .item [9], 3⟩
    [.item [1], .item [2], .item [5], .item [7]] (by decide) 2 (by decide)
  obtain ⟨hclamp, _, hsucc⟩ := T
  obtain ⟨heq, hmem, hcount⟩ := hsucc (by decide)
  refine ⟨hclamp, heq, hmem, hcount ?_ cmpB_asym (by decide)⟩
  intro i j hij hj
  have hj4 : j < 4 := by simpa using hj
  interval_cases j <;> interval_cases i <;> decide

end Nitro
